import Mathlib

/-!
Shallow embedding of `GenericHashContainer<sizeType, hashType>` from
`src/include/hashcontainer.h` / `src/include/hashcontainer.hpp`.

The container is parameterised by the bit width `w` of `sizeType` (slot
identifiers and links) and the bit width `hw` of `hashType` (the stored
hash fragment).  Machine integers are modelled as `Nat` with explicit
truncation `% 2 ^ w`; the two fixed-size arrays are modelled as total
functions from indices to values (reads outside the allocated range are
modelled explicitly only where the code can perform them, namely in
`begin()`'s bucket scan, see `BeginRes.oob`).  We model the release
(`NDEBUG`) build: assertions are no-ops and the debug-only sentinel
poisoning in `remove`/`clear` is absent.

Loops of the source walk bucket chains through `next` links; they are
embedded with an explicit fuel argument.  All public operations use fuel
`nodeCount + 1`, which is shown to be sufficient on well-formed states
(chains are duplicate-free with entries below `nodeCount`).
-/

/-- One entry of `m_nodeList`: the stored high-hash fragment and the link
field (`struct Node { hashType hash; sizeType next; }`). -/
structure HCNode where
  hash : Nat
  next : Nat
deriving DecidableEq

/-- The container state: width parameters, the two array sizes
(`m_bucketCount`, `m_nodeCount`) and the contents of `m_bucketList`
(each bucket is just its `first` field) and `m_nodeList`. -/
structure HC where
  w : Nat
  hw : Nat
  bucketCount : Nat
  nodeCount : Nat
  bucketFirst : Nat → Nat
  node : Nat → HCNode

/-- Pointwise array update, used to model a store into one array cell. -/
def upd {α : Type} (f : Nat → α) (i : Nat) (v : α) : Nat → α :=
  fun j => if j = i then v else f j

namespace HC

/-- `sizeLimits::max()`: the sentinel value of the slot width. -/
def sentinel (c : HC) : Nat := 2 ^ c.w - 1

/-- `hashLimits::max()`: the all-ones value of the hash-fragment width. -/
def hashSentinel (c : HC) : Nat := 2 ^ c.hw - 1

/-- `low(hash)`: `static_cast<sizeType>(hash)`, i.e. truncation of the
64-bit hash to the slot width. -/
def low (c : HC) (h : Nat) : Nat := h % 2 ^ c.w

/-- `high(hash)`: `static_cast<hashType>(hash >> (64 - 8*sizeof(hashType)))`,
the top `hw` bits of the 64-bit hash. -/
def high (c : HC) (h : Nat) : Nat := (h / 2 ^ (64 - c.hw)) % 2 ^ c.hw

/-- The bucket index used by `insert`, `find` and `emplace`:
`low(hash) % m_bucketCount`. -/
def bucketOf (c : HC) (h : Nat) : Nat := c.low h % c.bucketCount

/-- `insert(hash, value)`: push slot `value` onto the front of the chain of
bucket `low(hash) % m_bucketCount` and store `high(hash)` in the node. -/
def insert (c : HC) (h : Nat) (v : Nat) : HC :=
  let b := c.bucketOf h
  { c with
    node := upd c.node v ⟨c.high h, c.bucketFirst b⟩
    bucketFirst := upd c.bucketFirst b v }

/-- `emplace(hash, value)`: write `high(hash)` into the node and stash the
target bucket index in the node's `next` field; no bucket is touched. -/
def emplace (c : HC) (h : Nat) (v : Nat) : HC :=
  { c with node := upd c.node v ⟨c.high h, c.bucketOf h⟩ }

/-- `insertEmplaced(value)`: read the stashed bucket index out of the
node's `next` field and push the node onto that bucket's chain head. -/
def insertEmplaced (c : HC) (v : Nat) : HC :=
  let b := (c.node v).next
  { c with
    node := upd c.node v ⟨(c.node v).hash, c.bucketFirst b⟩
    bucketFirst := upd c.bucketFirst b v }

/-- `clear()` in a release build: reset every bucket's `first` to the
sentinel (memset with all-one bytes); nodes are untouched. -/
def clear (c : HC) : HC :=
  { c with bucketFirst := fun _ => c.sentinel }

/-- The scan loop of `remove` when the removed slot is not the chain head:
walk the chain from `current`; whenever a node's `next` equals `value`,
relink it to `m_nodeList[value].next`; continue from the (re-read) `next`
field.  `fuel` bounds the number of iterations of the source's
`while (current != sizeLimits::max())` loop. -/
def removeScan (c : HC) (value current : Nat) : Nat → HC
  | 0 => c
  | fuel + 1 =>
    if current = c.sentinel then c
    else
      let c' := if (c.node current).next = value
        then { c with node := upd c.node current ⟨(c.node current).hash, (c.node value).next⟩ }
        else c
      removeScan c' value ((c'.node current).next) fuel

/-- `remove(hash, value)`: no-op when the stored fragment differs from
`high(hash)`; otherwise unlink `value` from the chain of bucket
`low(hash) % m_bucketCount` (head case in O(1), else by the scan loop). -/
def remove (c : HC) (h : Nat) (value : Nat) : HC :=
  if (c.node value).hash ≠ c.high h then c
  else
    let b := c.bucketOf h
    if c.bucketFirst b = value then
      { c with bucketFirst := upd c.bucketFirst b (c.node value).next }
    else
      removeScan c value (c.bucketFirst b) (c.nodeCount + 1)

/-- `findNext(hash, current)`: walk the chain from `current`, returning the
first node whose stored fragment equals `hash`, or the sentinel. -/
def findNextFuel (c : HC) (f current : Nat) : Nat → Nat
  | 0 => c.sentinel
  | fuel + 1 =>
    if current = c.sentinel then c.sentinel
    else if (c.node current).hash = f then current
    else findNextFuel c f ((c.node current).next) fuel

/-- The position of the cursor returned by `find(hash)`
(`find(high(hash), low(hash) % m_bucketCount)`); sentinel = invalid. -/
def findPos (c : HC) (h : Nat) : Nat :=
  findNextFuel c (c.high h) (c.bucketFirst (c.bucketOf h)) (c.nodeCount + 1)

/-- `SearchIterator::operator++`: `findNext(current)` =
`findNext(m_nodeList[current].hash, m_nodeList[current].next)`. -/
def nextPos (c : HC) (pos : Nat) : Nat :=
  findNextFuel c (c.node pos).hash ((c.node pos).next) (c.nodeCount + 1)

/-- The list of positions a `SearchIterator` visits, starting at `pos` and
advancing with `operator++` until it becomes invalid (`k` bounds the
number of visits). -/
def visited (c : HC) (pos : Nat) : Nat → List Nat
  | 0 => []
  | k + 1 => if pos = c.sentinel then [] else pos :: visited c (c.nextPos pos) k

/-- The full iteration of the internal `find(hash, pos)` (fragment `f`,
bucket `b`): the cursor's start position and every position reached by
`operator++`. -/
def searchOut (c : HC) (f b : Nat) : List Nat :=
  c.visited (findNextFuel c f (c.bucketFirst b) (c.nodeCount + 1)) (c.nodeCount + 1)

/-- The full iteration of the public `find(hash)`. -/
def findList (c : HC) (h : Nat) : List Nat :=
  c.searchOut (c.high h) (c.bucketOf h)

/-- The full iteration of `findEmplaced(pos)` =
`find(m_nodeList[pos].hash, m_nodeList[pos].next)`. -/
def findEmplacedList (c : HC) (pos : Nat) : List Nat :=
  c.searchOut ((c.node pos).hash) ((c.node pos).next)

/-- Result of `begin()`: a positioned iterator, the end iterator, or an
out-of-range read of `m_bucketList` (undefined behaviour in the source). -/
inductive BeginRes where
  | it (pos bucket : Nat)
  | endIt
  | oob (bucket : Nat)
deriving DecidableEq

/-- The scan loop of `begin()`: read `m_bucketList[bucket].first` (an
out-of-range read if `bucket ≥ m_bucketCount` — the source checks
`bucket == m_bucketCount` only after incrementing), advance past empty
buckets, return `end()` when the increment reaches `m_bucketCount`. -/
def beginLoop (c : HC) (bucket : Nat) : BeginRes :=
  if hb : bucket < c.bucketCount then
    if c.bucketFirst bucket = c.sentinel then
      if bucket + 1 = c.bucketCount then .endIt
      else beginLoop c (bucket + 1)
    else .it (c.bucketFirst bucket) bucket
  else .oob bucket
termination_by c.bucketCount - bucket

/-- `begin()`: scan from bucket 0. -/
def beginIt (c : HC) : BeginRes := c.beginLoop 0

/-- The bucket-advance loop of `nextElement`:
`while (++bucket != m_bucketCount) { if nonempty return its head }`.
Returns the new position and the new value of the `bucket` reference. -/
def scanB (c : HC) (b : Nat) : Nat × Nat :=
  if hb : b < c.bucketCount then
    if c.bucketFirst b ≠ c.sentinel then (c.bucketFirst b, b)
    else scanB c (b + 1)
  else (c.sentinel, b)
termination_by c.bucketCount - b

/-- `nextElement(current, bucket)`: follow the node's `next` inside the
bucket, else scan forward for the next non-empty bucket. -/
def nextElement (c : HC) (current bucket : Nat) : Nat × Nat :=
  if (c.node current).next ≠ c.sentinel then ((c.node current).next, bucket)
  else scanB c (bucket + 1)

/-- The list of positions the global `Iterator` visits from state
`(pos, bucket)`, advancing with `operator++` until invalid. -/
def iterGlobal (c : HC) : Nat × Nat → Nat → List Nat
  | _, 0 => []
  | (pos, bucket), k + 1 =>
    if pos = c.sentinel then []
    else pos :: iterGlobal c (c.nextElement pos bucket) k

/-- The full traversal `begin()` … `end()` of the global iterator. -/
def globalList (c : HC) : List Nat :=
  match c.beginIt with
  | .it pos bucket => c.iterGlobal (pos, bucket) (c.nodeCount + 1)
  | _ => []

/-- `computeBucketCount` plus the constructor (release build): fails when
`entries >= sizeLimits::max() / bucketFactor` with `bucketFactor = 2`;
otherwise `bucketCount = 2 * entries`, `nodeCount = entries`, buckets
cleared to the sentinel, nodes zero-initialised (`std::make_unique`
value-initialises; release `clear()` touches only the buckets). -/
def create (w hw entries : Nat) : Option HC :=
  if (2 ^ w - 1) / 2 ≤ entries then none
  else some
    { w := w, hw := hw
      bucketCount := 2 * entries
      nodeCount := entries
      bucketFirst := fun _ => 2 ^ w - 1
      node := fun _ => ⟨0, 0⟩ }

/-- `insert` folded over a list of slots, all under the same hash. -/
def insertAll (c : HC) (h : Nat) : List Nat → HC
  | [] => c
  | v :: vs => insertAll (c.insert h v) h vs

/-- `IsChainSeg c start l e` holds when following `next` links from pointer
`start` visits exactly the slots of `l` in order and then reaches the
pointer value `e`.  A full bucket chain is a segment ending at the
sentinel. -/
def IsChainSeg (c : HC) : Nat → List Nat → Nat → Prop
  | start, [], e => start = e
  | start, x :: xs, e => start = x ∧ IsChainSeg c ((c.node x).next) xs e

/-- Decision procedure for `IsChainSeg` (used to discharge witnesses on
concrete containers). -/
def IsChainSeg.dec (c : HC) : (s : Nat) → (l : List Nat) → (e : Nat) →
    Decidable (IsChainSeg c s l e)
  | s, [], e => decidable_of_iff (s = e) Iff.rfl
  | s, x :: xs, e =>
    have := IsChainSeg.dec c ((c.node x).next) xs e
    decidable_of_iff (s = x ∧ IsChainSeg c ((c.node x).next) xs e) Iff.rfl

instance (c : HC) (s : Nat) (l : List Nat) (e : Nat) :
    Decidable (IsChainSeg c s l e) := IsChainSeg.dec c s l e

/-- The chain reachable from pointer `start`, computed with fuel. -/
def chainF (c : HC) (start : Nat) : Nat → List Nat
  | 0 => []
  | fuel + 1 =>
    if start = c.sentinel then [] else start :: chainF c ((c.node start).next) fuel

/-- The chain of bucket `b`, computed with fuel `nodeCount` (sufficient on
well-formed states, whose chains have at most `nodeCount` entries). -/
def bucketChain (c : HC) (b : Nat) : List Nat := c.chainF (c.bucketFirst b) c.nodeCount

/-- Slot `x` is a live entry: it sits in the chain of some bucket. -/
def Live (c : HC) (x : Nat) : Prop :=
  ∃ b, b < c.bucketCount ∧ x ∈ c.bucketChain b

/-- Slot `v` is currently unoccupied: it sits in no bucket chain. -/
def Unoccupied (c : HC) (v : Nat) : Prop :=
  ∀ b, b < c.bucketCount → v ∉ c.bucketChain b

/-- Well-formedness of a container state: `nodeCount` is below the
sentinel, every bucket's computed chain really is a sentinel-terminated
segment (hence every chain walk stops within `nodeCount` steps), chain
entries are valid slot indices, no chain repeats a slot, and distinct
buckets' chains are disjoint. -/
def WF (c : HC) : Prop :=
  c.nodeCount < c.sentinel ∧
  (∀ b, b < c.bucketCount → IsChainSeg c (c.bucketFirst b) (c.bucketChain b) c.sentinel) ∧
  (∀ b, b < c.bucketCount → ∀ x ∈ c.bucketChain b, x < c.nodeCount) ∧
  (∀ b, b < c.bucketCount → (c.bucketChain b).Nodup) ∧
  (∀ b, b < c.bucketCount → ∀ b', b' < c.bucketCount → b ≠ b' →
    ∀ x ∈ c.bucketChain b, x ∉ c.bucketChain b')

instance (c : HC) : Decidable c.WF := by
  unfold WF
  letI : ∀ b b' : Nat, Decidable (b ≠ b' → ∀ x ∈ c.bucketChain b, x ∉ c.bucketChain b') :=
    fun _ _ => inferInstance
  exact inferInstance

instance (c : HC) (v : Nat) : Decidable (c.Unoccupied v) := by
  unfold Unoccupied
  exact inferInstance

/-- The sublist of `l` whose nodes store fragment `f` — the set of slots a
restricted-match (`SearchIterator`) walk over chain `l` reports. -/
def matchList (c : HC) (f : Nat) : List Nat → List Nat
  | [] => []
  | x :: xs =>
    if (c.node x).hash = f then x :: matchList c f xs else matchList c f xs

/-- Concatenation of all bucket chains from bucket `b` upwards, in
ascending bucket order: the order of the global iterator. -/
def chainsFrom (c : HC) (b : Nat) : List Nat :=
  if _hb : b < c.bucketCount then c.bucketChain b ++ chainsFrom c (b + 1) else []
termination_by c.bucketCount - b

/-- One valid operation, as in the implicit-invariant claim: `insert` of a
currently unoccupied slot, the `emplace`/`insertEmplaced` pair on a
currently unoccupied slot, `remove` of a live entry under its original
hash, and `clear`. -/
inductive Step : HC → HC → Prop
  | ins (c : HC) (h v : Nat) : 0 < c.bucketCount → v < c.nodeCount →
      c.Unoccupied v → Step c (c.insert h v)
  | emp (c : HC) (h v : Nat) : 0 < c.bucketCount → v < c.nodeCount →
      c.Unoccupied v → Step c ((c.emplace h v).insertEmplaced v)
  | rem (c : HC) (h v : Nat) : 0 < c.bucketCount →
      v ∈ c.bucketChain (c.bucketOf h) → (c.node v).hash = c.high h →
      Step c (c.remove h v)
  | clr (c : HC) : Step c c.clear

end HC

theorem upd_same {α : Type} (f : Nat → α) (i : Nat) (v : α) : upd f i v i = v := by
  simp [upd]

theorem upd_other {α : Type} (f : Nat → α) {i j : Nat} (v : α) (h : j ≠ i) :
    upd f i v j = f j := by
  simp [upd, h]

theorem upd_upd {α : Type} (f : Nat → α) (i : Nat) (a b : α) :
    upd (upd f i a) i b = upd f i b := by
  funext j
  by_cases hj : j = i <;> simp [upd, hj]

/-- A duplicate-free list of naturals below `n` has at most `n` entries. -/
theorem length_le_of_nodup_lt {l : List Nat} {n : Nat} (hnd : l.Nodup)
    (hlt : ∀ x ∈ l, x < n) : l.length ≤ n := by
  have h1 : l.toFinset.card = l.length := List.toFinset_card_of_nodup hnd
  have h2 : l.toFinset ⊆ Finset.range n := by
    intro x hx
    rw [List.mem_toFinset] at hx
    exact Finset.mem_range.mpr (hlt x hx)
  have := Finset.card_le_card h2
  rw [h1, Finset.card_range] at this
  exact this

namespace HC

theorem isChainSeg_nil {c : HC} {s e : Nat} : c.IsChainSeg s [] e ↔ s = e := Iff.rfl

theorem isChainSeg_cons {c : HC} {s e x : Nat} {xs : List Nat} :
    c.IsChainSeg s (x :: xs) e ↔ s = x ∧ c.IsChainSeg ((c.node x).next) xs e := Iff.rfl

/-- A chain segment only depends on the nodes of its own slots. -/
theorem isChainSeg_congr {c c' : HC} {s e : Nat} {l : List Nat}
    (hnode : ∀ x ∈ l, c'.node x = c.node x) (h : c.IsChainSeg s l e) :
    c'.IsChainSeg s l e := by
  induction l generalizing s with
  | nil => exact h
  | cons x xs ih =>
    obtain ⟨hx, htail⟩ := h
    refine ⟨hx, ?_⟩
    rw [hnode x (List.mem_cons_self x xs)]
    exact ih (fun y hy => hnode y (List.mem_cons_of_mem x hy)) htail

/-- Chain segments compose and decompose along list concatenation. -/
theorem isChainSeg_append {c : HC} {s e : Nat} {l₁ l₂ : List Nat} :
    c.IsChainSeg s (l₁ ++ l₂) e ↔
      ∃ m, c.IsChainSeg s l₁ m ∧ c.IsChainSeg m l₂ e := by
  induction l₁ generalizing s with
  | nil =>
    constructor
    · intro h; exact ⟨s, rfl, h⟩
    · rintro ⟨m, rfl, h⟩; exact h
  | cons x xs ih =>
    constructor
    · rintro ⟨rfl, h⟩
      obtain ⟨m, h1, h2⟩ := ih.mp h
      exact ⟨m, ⟨rfl, h1⟩, h2⟩
    · rintro ⟨m, ⟨rfl, h1⟩, h2⟩
      exact ⟨rfl, ih.mpr ⟨m, h1, h2⟩⟩

/-- A segment starting at the sentinel and avoiding the sentinel is empty. -/
theorem isChainSeg_sentinel {c : HC} {l : List Nat} {e : Nat}
    (h : c.IsChainSeg c.sentinel l e) (hs : ∀ x ∈ l, x ≠ c.sentinel) : l = [] := by
  cases l with
  | nil => rfl
  | cons x xs =>
    obtain ⟨hx, -⟩ := h
    exact absurd hx.symm (hs x (List.mem_cons_self x xs))

/-- The fuel-computed chain recovers a sentinel-terminated segment. -/
theorem chainF_eq_of_seg {c : HC} {s : Nat} {l : List Nat}
    (h : c.IsChainSeg s l c.sentinel) (hs : ∀ x ∈ l, x ≠ c.sentinel) :
    ∀ fuel, l.length ≤ fuel → c.chainF s fuel = l := by
  induction l generalizing s with
  | nil =>
    intro fuel _
    cases fuel with
    | zero => rfl
    | succ fuel => simp [chainF, isChainSeg_nil.mp h]
  | cons x xs ih =>
    intro fuel hfuel
    obtain ⟨hx, htail⟩ := h
    cases fuel with
    | zero => exact absurd hfuel (by simp)
    | succ fuel =>
      have hxs : x ≠ c.sentinel := hs x (List.mem_cons_self x xs)
      rw [hx]
      simp only [chainF, if_neg hxs]
      rw [ih htail (fun y hy => hs y (List.mem_cons_of_mem x hy)) fuel
        (Nat.succ_le_succ_iff.mp (by simpa using hfuel))]

theorem mem_matchList {c : HC} {f x : Nat} {l : List Nat} :
    x ∈ c.matchList f l ↔ x ∈ l ∧ (c.node x).hash = f := by
  induction l with
  | nil => simp [matchList]
  | cons y ys ih =>
    by_cases hy : (c.node y).hash = f
    · simp only [matchList, if_pos hy, List.mem_cons]
      constructor
      · rintro (rfl | hx)
        · exact ⟨Or.inl rfl, hy⟩
        · obtain ⟨h1, h2⟩ := ih.mp hx
          exact ⟨Or.inr h1, h2⟩
      · rintro ⟨rfl | h1, h2⟩
        · exact Or.inl rfl
        · exact Or.inr (ih.mpr ⟨h1, h2⟩)
    · simp only [matchList, if_neg hy, List.mem_cons, ih]
      constructor
      · rintro ⟨h1, h2⟩
        exact ⟨Or.inr h1, h2⟩
      · rintro ⟨rfl | h1, h2⟩
        · exact absurd h2 hy
        · exact ⟨h1, h2⟩

theorem matchList_congr {c c' : HC} {f : Nat} {l : List Nat}
    (h : ∀ x ∈ l, (c'.node x).hash = (c.node x).hash) :
    c'.matchList f l = c.matchList f l := by
  induction l with
  | nil => rfl
  | cons x xs ih =>
    have hx := h x (List.mem_cons_self x xs)
    have htail := ih (fun y hy => h y (List.mem_cons_of_mem x hy))
    by_cases hm : (c.node x).hash = f
    · simp [matchList, hx, hm, htail]
    · simp [matchList, hx, hm, htail]

theorem matchList_append {c : HC} {f : Nat} {l₁ l₂ : List Nat} :
    c.matchList f (l₁ ++ l₂) = c.matchList f l₁ ++ c.matchList f l₂ := by
  induction l₁ with
  | nil => rfl
  | cons x xs ih =>
    by_cases hm : (c.node x).hash = f <;> simp [matchList, hm, ih]

theorem matchList_length_le {c : HC} {f : Nat} (l : List Nat) :
    (c.matchList f l).length ≤ l.length := by
  induction l with
  | nil => exact Nat.le_refl _
  | cons x xs ih =>
    by_cases hm : (c.node x).hash = f
    · simpa [matchList, hm] using Nat.succ_le_succ ih
    · simp only [matchList, if_neg hm, List.length_cons]
      exact Nat.le_succ_of_le ih

theorem matchList_eq_self {c : HC} {f : Nat} {l : List Nat}
    (h : ∀ x ∈ l, (c.node x).hash = f) : c.matchList f l = l := by
  induction l with
  | nil => rfl
  | cons x xs ih =>
    simp [matchList, h x (List.mem_cons_self x xs),
      ih (fun y hy => h y (List.mem_cons_of_mem x hy))]

/-- On a sentinel-terminated chain, the `findNext` walk returns the first
slot whose stored fragment is `f`, or the sentinel when none matches. -/
theorem findNextFuel_eq {c : HC} {l : List Nat} :
    ∀ {s : Nat}, c.IsChainSeg s l c.sentinel → (∀ x ∈ l, x ≠ c.sentinel) →
    ∀ {f fuel : Nat}, l.length < fuel →
    findNextFuel c f s fuel = (c.matchList f l).headD c.sentinel := by
  induction l with
  | nil =>
    intro s h _ f fuel hfuel
    cases fuel with
    | zero => exact absurd hfuel (by simp)
    | succ fuel => simp [findNextFuel, isChainSeg_nil.mp h, matchList]
  | cons x xs ih =>
    intro s h hs f fuel hfuel
    obtain ⟨hx, htail⟩ := h
    have hxs : x ≠ c.sentinel := hs x (List.mem_cons_self x xs)
    cases fuel with
    | zero => exact absurd hfuel (by simp)
    | succ fuel =>
      rw [hx]
      by_cases hm : (c.node x).hash = f
      · simp [findNextFuel, hxs, hm, matchList]
      · simp only [findNextFuel, if_neg hxs, if_neg hm]
        rw [ih htail (fun y hy => hs y (List.mem_cons_of_mem x hy))
          (Nat.lt_of_succ_lt_succ (by simpa using hfuel))]
        simp [matchList, hm]

/-- Iterating a `SearchIterator` from the result of a `findNext` walk over
a sentinel-terminated chain visits exactly the matching slots, in chain
order, and then becomes invalid. -/
theorem visited_findNext_eq {c : HC} {l : List Nat} :
    ∀ {s : Nat}, c.IsChainSeg s l c.sentinel → (∀ x ∈ l, x ≠ c.sentinel) →
    l.length ≤ c.nodeCount →
    ∀ {f fuel k : Nat}, l.length < fuel → (c.matchList f l).length ≤ k →
    c.visited (findNextFuel c f s fuel) k = c.matchList f l := by
  induction l with
  | nil =>
    intro s h _ _ f fuel k hfuel _
    cases fuel with
    | zero => exact absurd hfuel (by simp)
    | succ fuel =>
      cases k with
      | zero => simp [findNextFuel, isChainSeg_nil.mp h, matchList, visited]
      | succ k => simp [findNextFuel, isChainSeg_nil.mp h, matchList, visited]
  | cons x xs ih =>
    intro s h hs hnc f fuel k hfuel hk
    obtain ⟨hx, htail⟩ := h
    have hxs : x ≠ c.sentinel := hs x (List.mem_cons_self x xs)
    have hs' : ∀ y ∈ xs, y ≠ c.sentinel := fun y hy => hs y (List.mem_cons_of_mem x hy)
    have hnc' : xs.length ≤ c.nodeCount :=
      Nat.le_of_succ_le (by simpa using hnc)
    cases fuel with
    | zero => exact absurd hfuel (by simp)
    | succ fuel =>
      rw [hx]
      by_cases hm : (c.node x).hash = f
      · simp only [findNextFuel, if_neg hxs, if_pos hm]
        have hml : c.matchList f (x :: xs) = x :: c.matchList f xs := by
          simp [matchList, hm]
        rw [hml] at hk ⊢
        cases k with
        | zero => exact absurd hk (by simp)
        | succ k =>
          simp only [visited, if_neg hxs]
          have hnext : c.nextPos x = findNextFuel c f ((c.node x).next) (c.nodeCount + 1) := by
            rw [nextPos, hm]
          rw [hnext, ih htail hs' hnc' (Nat.lt_succ_of_le hnc')
            (Nat.succ_le_succ_iff.mp (by simpa using hk))]
      · simp only [findNextFuel, if_neg hxs, if_neg hm]
        have hml : c.matchList f (x :: xs) = c.matchList f xs := by
          simp [matchList, hm]
        rw [hml] at hk ⊢
        exact ih htail hs' hnc' (Nat.lt_of_succ_lt_succ (by simpa using hfuel)) hk

/-- Entries of a well-formed bucket chain are valid slots, hence not the
sentinel. -/
theorem wf_chain_ne_sentinel {c : HC} (hw : c.WF) {b : Nat} (hb : b < c.bucketCount) :
    ∀ x ∈ c.bucketChain b, x ≠ c.sentinel := by
  intro x hx
  exact Nat.ne_of_lt (Nat.lt_trans (hw.2.2.1 b hb x hx) hw.1)

/-- A well-formed bucket chain has at most `nodeCount` entries. -/
theorem wf_chain_length {c : HC} (hw : c.WF) {b : Nat} (hb : b < c.bucketCount) :
    (c.bucketChain b).length ≤ c.nodeCount :=
  length_le_of_nodup_lt (hw.2.2.2.1 b hb) (hw.2.2.1 b hb)

/-- On a well-formed state the full iteration of the internal
`find(f, b)` reports exactly the chain slots of bucket `b` storing
fragment `f`, in chain order. -/
theorem searchOut_eq {c : HC} (hw : c.WF) {b : Nat} (hb : b < c.bucketCount) (f : Nat) :
    c.searchOut f b = c.matchList f (c.bucketChain b) := by
  have hlen := wf_chain_length hw hb
  exact visited_findNext_eq (hw.2.1 b hb) (wf_chain_ne_sentinel hw hb) hlen
    (Nat.lt_succ_of_le hlen)
    (Nat.le_succ_of_le (Nat.le_trans (matchList_length_le _) hlen))

/-- On a well-formed state with at least one bucket, `find(h)` returns the
first slot of the queried bucket's chain storing fragment `high(h)`. -/
theorem findPos_eq {c : HC} (hw : c.WF) (hbc : 0 < c.bucketCount) (h : Nat) :
    c.findPos h =
      (c.matchList (c.high h) (c.bucketChain (c.bucketOf h))).headD c.sentinel := by
  have hb : c.bucketOf h < c.bucketCount := Nat.mod_lt _ hbc
  have hlen := wf_chain_length hw hb
  exact findNextFuel_eq (hw.2.1 _ hb) (wf_chain_ne_sentinel hw hb)
    (Nat.lt_succ_of_le hlen)

/-- On a well-formed state with at least one bucket, iterating `find(h)`
reports exactly the matching slots of the queried bucket's chain. -/
theorem findList_eq {c : HC} (hw : c.WF) (hbc : 0 < c.bucketCount) (h : Nat) :
    c.findList h = c.matchList (c.high h) (c.bucketChain (c.bucketOf h)) :=
  searchOut_eq hw (Nat.mod_lt _ hbc) _

theorem chainF_sentinel (c : HC) : ∀ fuel, c.chainF c.sentinel fuel = [] := by
  intro fuel
  cases fuel with
  | zero => rfl
  | succ fuel => simp [chainF]

/-- Replacing only the bucket array does not disturb chain segments. -/
theorem isChainSeg_setBuckets {c : HC} {f : Nat → Nat} {s e : Nat} {l : List Nat}
    (h : c.IsChainSeg s l e) : IsChainSeg { c with bucketFirst := f } s l e := by
  refine isChainSeg_congr ?_ h
  intro x _
  rfl

/-- Replacing only the bucket array does not disturb link walks. -/
theorem chainF_setBuckets (c : HC) (f : Nat → Nat) :
    ∀ fuel s, chainF { c with bucketFirst := f } s fuel = c.chainF s fuel := by
  intro fuel
  induction fuel with
  | zero => intro s; rfl
  | succ fuel ih =>
    intro s
    show (if s = c.sentinel then [] else s :: _) = _
    rw [chainF]
    by_cases hs : s = c.sentinel
    · rw [if_pos hs, if_pos hs]
    · rw [if_neg hs, if_neg hs, ih]

/-- Unfolding of a successful construction. -/
theorem create_some {w hw e : Nat} {c : HC} (h : create w hw e = some c) :
    e < (2 ^ w - 1) / 2 ∧
      c = ⟨w, hw, 2 * e, e, fun _ => 2 ^ w - 1, fun _ => ⟨0, 0⟩⟩ := by
  unfold create at h
  split at h
  · exact absurd h (by simp)
  · exact ⟨by omega, (Option.some_injective _ h).symm⟩

/-- Every bucket of a freshly constructed container is empty. -/
theorem create_chain {w hw e : Nat} {c : HC} (h : create w hw e = some c) :
    ∀ b, c.bucketChain b = [] := by
  obtain ⟨-, rfl⟩ := create_some h
  intro b
  exact chainF_sentinel _ _

/-- A freshly constructed container is well formed. -/
theorem create_wf {w hw e : Nat} {c : HC} (h : create w hw e = some c) : c.WF := by
  have hch := create_chain h
  obtain ⟨he, rfl⟩ := create_some h
  refine ⟨?_, ?_, ?_, ?_, ?_⟩
  · show e < 2 ^ w - 1
    exact Nat.lt_of_lt_of_le he (Nat.div_le_self _ _)
  · intro b _
    rw [hch b]
    rfl
  · intro b _ x hx
    rw [hch b] at hx
    exact absurd hx (List.not_mem_nil x)
  · intro b _
    rw [hch b]
    exact List.nodup_nil
  · intro b _ b' _ _ x hx
    rw [hch b] at hx
    exact absurd hx (List.not_mem_nil x)

/-- Effect of `insert` on the queried bucket's chain: the new slot is
pushed onto the front (LIFO). -/
theorem insert_chain_same {c : HC} (hw : c.WF) (hbc : 0 < c.bucketCount) {v : Nat}
    (hv : v < c.nodeCount) (hun : c.Unoccupied v) (h : Nat) :
    (c.insert h v).bucketChain (c.bucketOf h) = v :: c.bucketChain (c.bucketOf h) := by
  obtain ⟨hns, hseg, hlt, hnd, -⟩ := hw
  have hb : c.bucketOf h < c.bucketCount := Nat.mod_lt _ hbc
  have hvnl : v ∉ c.bucketChain (c.bucketOf h) := hun _ hb
  have hnodeo : ∀ x ∈ c.bucketChain (c.bucketOf h), (c.insert h v).node x = c.node x :=
    fun x hx => upd_other _ _ (fun hxv => hvnl (hxv ▸ hx))
  have hseg' : IsChainSeg (c.insert h v) (c.bucketFirst (c.bucketOf h))
      (c.bucketChain (c.bucketOf h)) c.sentinel :=
    isChainSeg_congr hnodeo (hseg _ hb)
  have hsegv : IsChainSeg (c.insert h v) v (v :: c.bucketChain (c.bucketOf h)) c.sentinel := by
    refine ⟨rfl, ?_⟩
    show IsChainSeg (c.insert h v) ((upd c.node v ⟨c.high h, c.bucketFirst (c.bucketOf h)⟩ v).next) _ _
    rw [upd_same]
    exact hseg'
  have hfst : (c.insert h v).bucketFirst (c.bucketOf h) = v := upd_same _ _ _
  show (c.insert h v).chainF ((c.insert h v).bucketFirst (c.bucketOf h)) c.nodeCount = _
  rw [hfst]
  refine chainF_eq_of_seg hsegv ?_ c.nodeCount ?_
  · intro x hx
    rcases List.mem_cons.mp hx with rfl | hx
    · exact Nat.ne_of_lt (Nat.lt_trans hv hns)
    · exact Nat.ne_of_lt (Nat.lt_trans (hlt _ hb x hx) hns)
  · refine length_le_of_nodup_lt (List.nodup_cons.mpr ⟨hvnl, hnd _ hb⟩) ?_
    intro x hx
    rcases List.mem_cons.mp hx with rfl | hx
    · exact hv
    · exact hlt _ hb x hx

/-- `insert` leaves every other bucket's chain unchanged. -/
theorem insert_chain_other {c : HC} (hw : c.WF) {v : Nat}
    (hun : c.Unoccupied v) (h : Nat) :
    ∀ b, b < c.bucketCount → b ≠ c.bucketOf h →
      (c.insert h v).bucketChain b = c.bucketChain b := by
  obtain ⟨hns, hseg, hlt, hnd, -⟩ := hw
  intro b hb hne
  have hvnl : v ∉ c.bucketChain b := hun _ hb
  have hseg' : IsChainSeg (c.insert h v) (c.bucketFirst b) (c.bucketChain b) c.sentinel :=
    isChainSeg_congr (fun x hx => upd_other _ _ (fun hxv => hvnl (hxv ▸ hx))) (hseg _ hb)
  have hfst : (c.insert h v).bucketFirst b = c.bucketFirst b := upd_other _ _ hne
  show (c.insert h v).chainF ((c.insert h v).bucketFirst b) c.nodeCount = _
  rw [hfst]
  exact chainF_eq_of_seg hseg'
    (fun x hx => Nat.ne_of_lt (Nat.lt_trans (hlt _ hb x hx) hns)) c.nodeCount
    (length_le_of_nodup_lt (hnd _ hb) (hlt _ hb))

/-- `insert` of an unoccupied valid slot preserves well-formedness. -/
theorem insert_wf {c : HC} (hw : c.WF) (hbc : 0 < c.bucketCount) {v : Nat}
    (hv : v < c.nodeCount) (hun : c.Unoccupied v) (h : Nat) :
    (c.insert h v).WF := by
  have hsame := insert_chain_same hw hbc hv hun h
  have hother := insert_chain_other hw hun h
  obtain ⟨hns, hseg, hlt, hnd, hdisj⟩ := hw
  have hb : c.bucketOf h < c.bucketCount := Nat.mod_lt _ hbc
  have hchain : ∀ b, b < c.bucketCount →
      ((c.insert h v).bucketChain b = c.bucketChain b ∧ b ≠ c.bucketOf h) ∨
      ((c.insert h v).bucketChain b = v :: c.bucketChain b ∧ b = c.bucketOf h) := by
    intro b hbb
    by_cases hbe : b = c.bucketOf h
    · right
      exact ⟨hbe ▸ hsame, hbe⟩
    · left
      exact ⟨hother b hbb hbe, hbe⟩
  have hmem : ∀ b, b < c.bucketCount → ∀ x ∈ (c.insert h v).bucketChain b,
      x = v ∨ x ∈ c.bucketChain b := by
    intro b hbb x hx
    rcases hchain b hbb with ⟨he, -⟩ | ⟨he, -⟩
    · exact Or.inr (he ▸ hx)
    · rw [he] at hx
      rcases List.mem_cons.mp hx with rfl | hx
      · exact Or.inl rfl
      · exact Or.inr hx
  refine ⟨hns, ?_, ?_, ?_, ?_⟩
  · intro b hbb
    rcases hchain b hbb with ⟨he, hbe⟩ | ⟨he, hbe⟩
    · rw [he, show (c.insert h v).bucketFirst b = c.bucketFirst b from upd_other _ _ hbe]
      exact isChainSeg_congr
        (fun x hx => upd_other _ _ (fun hxv => hun _ hbb (hxv ▸ hx))) (hseg _ hbb)
    · rw [he]
      refine ⟨?_, ?_⟩
      · rw [hbe]
        exact upd_same _ _ _
      · show IsChainSeg (c.insert h v)
          ((upd c.node v ⟨c.high h, c.bucketFirst (c.bucketOf h)⟩ v).next) _ _
        rw [upd_same]
        show IsChainSeg (c.insert h v) (c.bucketFirst (c.bucketOf h)) _ _
        rw [← hbe]
        exact isChainSeg_congr
          (fun x hx => upd_other _ _ (fun hxv => hun _ hbb (hxv ▸ hx))) (hseg _ hbb)
  · intro b hbb x hx
    rcases hmem b hbb x hx with rfl | hx
    · exact hv
    · exact hlt _ hbb x hx
  · intro b hbb
    rcases hchain b hbb with ⟨he, -⟩ | ⟨he, -⟩
    · rw [he]
      exact hnd _ hbb
    · rw [he]
      exact List.nodup_cons.mpr ⟨hun _ hbb, hnd _ hbb⟩
  · intro b hbb b' hbb' hne x hx hx'
    rcases hmem b hbb x hx with rfl | hxc
    · -- x = v landed in chain b, so b is the target bucket; v cannot be in chain b'
      rcases hmem b' hbb' _ hx' with heq | hx'c
      · rcases hchain b hbb with ⟨-, hbe⟩ | ⟨-, hbe⟩
        · rcases hchain b' hbb' with ⟨he', hbe'⟩ | ⟨-, hbe'⟩
          · rw [he'] at hx'
            exact hun _ hbb' hx'
          · rcases hchain b hbb with ⟨he2, -⟩ | ⟨-, hbe2⟩
            · rw [he2] at hx
              exact hun _ hbb hx
            · exact hne (hbe2.trans hbe'.symm)
        · rcases hchain b' hbb' with ⟨he', -⟩ | ⟨-, hbe'⟩
          · rw [he'] at hx'
            exact hun _ hbb' hx'
          · exact hne (hbe.trans hbe'.symm)
      · exact hun _ hbb' hx'c
    · rcases hmem b' hbb' x hx' with rfl | hx'c
      · exact hun _ hbb hxc
      · exact hdisj b hbb b' hbb' hne x hxc hx'c

/-- `emplace` touches no bucket and no chain node, so every chain is
unchanged. -/
theorem emplace_chain {c : HC} (hw : c.WF) {v : Nat} (hun : c.Unoccupied v) (h : Nat) :
    ∀ b, b < c.bucketCount → (c.emplace h v).bucketChain b = c.bucketChain b := by
  obtain ⟨hns, hseg, hlt, hnd, -⟩ := hw
  intro b hb
  have hvnl : v ∉ c.bucketChain b := hun _ hb
  have hseg' : IsChainSeg (c.emplace h v) (c.bucketFirst b) (c.bucketChain b) c.sentinel :=
    isChainSeg_congr (fun x hx => upd_other _ _ (fun hxv => hvnl (hxv ▸ hx))) (hseg _ hb)
  show (c.emplace h v).chainF ((c.emplace h v).bucketFirst b) c.nodeCount = _
  exact chainF_eq_of_seg hseg'
    (fun x hx => Nat.ne_of_lt (Nat.lt_trans (hlt _ hb x hx) hns)) c.nodeCount
    (length_le_of_nodup_lt (hnd _ hb) (hlt _ hb))

/-- `emplace` of an unoccupied slot preserves well-formedness. -/
theorem emplace_wf {c : HC} (hw : c.WF) {v : Nat} (hun : c.Unoccupied v) (h : Nat) :
    (c.emplace h v).WF := by
  have hch := emplace_chain hw hun h
  obtain ⟨hns, hseg, hlt, hnd, hdisj⟩ := hw
  refine ⟨hns, ?_, ?_, ?_, ?_⟩
  · intro b hb
    rw [hch b hb]
    exact isChainSeg_congr
      (fun x hx => upd_other _ _ (fun hxv => hun _ hb (hxv ▸ hx))) (hseg _ hb)
  · intro b hb x hx
    rw [hch b hb] at hx
    exact hlt _ hb x hx
  · intro b hb
    rw [hch b hb]
    exact hnd _ hb
  · intro b hb b' hb' hne x hx hx'
    rw [hch b hb] at hx
    rw [hch b' hb'] at hx'
    exact hdisj b hb b' hb' hne x hx hx'

/-- Refinement: `emplace(h, v)` followed by `insertEmplaced(v)` produces
exactly the state of `insert(h, v)` — identical node and bucket arrays. -/
theorem emplace_insertEmplaced_eq_insert (c : HC) (h v : Nat) :
    (c.emplace h v).insertEmplaced v = c.insert h v := by
  unfold emplace insertEmplaced insert
  simp only [upd_same, upd_upd]

theorem clear_chain (c : HC) : ∀ b, (c.clear).bucketChain b = [] := by
  intro b
  show (c.clear).chainF c.sentinel c.nodeCount = []
  exact chainF_sentinel _ _

theorem clear_wf {c : HC} (hw : c.WF) : (c.clear).WF := by
  refine ⟨hw.1, ?_, ?_, ?_, ?_⟩
  · intro b _
    rw [clear_chain c b]
    rfl
  · intro b _ x hx
    rw [clear_chain c b] at hx
    exact absurd hx (List.not_mem_nil x)
  · intro b _
    rw [clear_chain c b]
    exact List.nodup_nil
  · intro b _ b' _ _ x hx
    rw [clear_chain c b] at hx
    exact absurd hx (List.not_mem_nil x)

/-- `begin()`'s scan over all-empty buckets reaches `end()`, provided the
starting bucket is in range. -/
theorem beginLoop_all_empty (c : HC) (hall : ∀ b, c.bucketFirst b = c.sentinel) :
    ∀ n bkt, c.bucketCount - bkt ≤ n → bkt < c.bucketCount →
      c.beginLoop bkt = BeginRes.endIt := by
  intro n
  induction n with
  | zero =>
    intro bkt h1 h2
    omega
  | succ n ih =>
    intro bkt h1 h2
    rw [beginLoop]
    rw [dif_pos h2, if_pos (hall bkt)]
    by_cases he : bkt + 1 = c.bucketCount
    · rw [if_pos he]
    · rw [if_neg he]
      exact ih (bkt + 1) (by omega) (by omega)

/-- Each chain node links either to another slot of the same segment or to
the segment's exit pointer. -/
theorem isChainSeg_next {c : HC} {l : List Nat} {e : Nat} :
    ∀ {s : Nat}, c.IsChainSeg s l e →
      ∀ x ∈ l, (c.node x).next ∈ l ∨ (c.node x).next = e := by
  induction l with
  | nil =>
    intro s _ x hx
    exact absurd hx (List.not_mem_nil x)
  | cons y ys ih =>
    intro s h x hx
    obtain ⟨-, htail⟩ := h
    rcases List.mem_cons.mp hx with rfl | hx
    · cases ys with
      | nil => exact Or.inr htail
      | cons z zs =>
        obtain ⟨hz, -⟩ := htail
        exact Or.inl (List.mem_cons.mpr (Or.inr (hz ▸ List.mem_cons_self z zs)))
    · rcases ih htail x hx with hm | hm
      · exact Or.inl (List.mem_cons_of_mem y hm)
      · exact Or.inr hm

/-- The scan loop of `remove` leaves the state unchanged while no visited
node links to `value`. -/
theorem removeScan_noop {c : HC} {value : Nat} {l : List Nat} :
    ∀ {cur : Nat}, c.IsChainSeg cur l c.sentinel → (∀ x ∈ l, x ≠ c.sentinel) →
    (∀ x ∈ l, (c.node x).next ≠ value) →
    ∀ {fuel : Nat}, l.length < fuel → c.removeScan value cur fuel = c := by
  induction l with
  | nil =>
    intro cur h _ _ fuel hfuel
    cases fuel with
    | zero => exact absurd hfuel (by simp)
    | succ fuel => simp [removeScan, isChainSeg_nil.mp h]
  | cons x xs ih =>
    intro cur h hs hnx fuel hfuel
    obtain ⟨hx, htail⟩ := h
    have hxs : x ≠ c.sentinel := hs x (List.mem_cons_self x xs)
    cases fuel with
    | zero => exact absurd hfuel (by simp)
    | succ fuel =>
      rw [hx]
      simp only [removeScan, if_neg hxs, if_neg (hnx x (List.mem_cons_self x xs))]
      exact ih htail (fun y hy => hs y (List.mem_cons_of_mem x hy))
        (fun y hy => hnx y (List.mem_cons_of_mem x hy))
        (Nat.lt_of_succ_lt_succ (by simpa using hfuel))

/-- Redirecting the link of the last slot of a segment retargets the
segment's exit pointer and disturbs nothing else. -/
theorem isChainSeg_retarget {c c' : HC} {l₁ : List Nat} {p e e' : Nat}
    (hnd : (l₁ ++ [p]).Nodup)
    (hnode : ∀ x, x ≠ p → c'.node x = c.node x)
    (hph : (c'.node p).next = e') :
    ∀ {s : Nat}, c.IsChainSeg s (l₁ ++ [p]) e → c'.IsChainSeg s (l₁ ++ [p]) e' := by
  induction l₁ with
  | nil =>
    intro s h
    obtain ⟨hs, -⟩ := h
    exact ⟨hs, hph⟩
  | cons q rest ih =>
    intro s h
    obtain ⟨hs, htail⟩ := h
    rw [List.cons_append] at hnd
    obtain ⟨hq1, hq2⟩ := List.nodup_cons.mp hnd
    have hq : q ≠ p := by
      intro hqp
      subst hqp
      exact hq1 (List.mem_append_right rest (List.mem_singleton_self q))
    refine ⟨hs, ?_⟩
    rw [hnode q hq]
    exact ih hq2 htail

/-- The scan loop of `remove`, run from the chain head up to the slot
linking to `value`: it rewrites exactly that slot's link to
`m_nodeList[value].next` and then walks the remainder without further
changes. -/
theorem removeScan_spec {c : HC} {value : Nat} {t₂ l₁ : List Nat} {p : Nat}
    (hvs : value ≠ c.sentinel) :
    ∀ {cur : Nat},
    c.IsChainSeg cur (l₁ ++ [p]) value →
    c.IsChainSeg ((c.node value).next) t₂ c.sentinel →
    ((l₁ ++ [p]) ++ value :: t₂).Nodup →
    (∀ x ∈ (l₁ ++ [p]) ++ value :: t₂, x ≠ c.sentinel) →
    ∀ {fuel : Nat}, (l₁ ++ [p]).length + t₂.length < fuel →
    c.removeScan value cur fuel =
      { c with node := upd c.node p ⟨(c.node p).hash, (c.node value).next⟩ } := by
  induction l₁ with
  | nil =>
    intro cur hseg1 hseg2 hnd hsent fuel hfuel
    obtain ⟨hcp, hpv⟩ := hseg1
    have hpnext : (c.node p).next = value := hpv
    have hps : p ≠ c.sentinel := hsent p (by simp)
    have hpmem : p ∉ value :: t₂ := (List.nodup_cons.mp (by simpa using hnd)).1
    have hvt : value ∉ t₂ :=
      (List.nodup_cons.mp (List.nodup_cons.mp (by simpa using hnd)).2).1
    cases fuel with
    | zero => exact absurd hfuel (by simp)
    | succ fuel =>
      rw [hcp]
      simp only [removeScan, if_neg hps]
      rw [if_pos hpnext]
      have hpn : (upd c.node p ⟨(c.node p).hash, (c.node value).next⟩ p).next =
          (c.node value).next := by rw [upd_same]
      rw [hpn]
      set cP : HC := { c with node := upd c.node p ⟨(c.node p).hash, (c.node value).next⟩ }
        with hcP
      have hnodeq : ∀ x ∈ t₂, cP.node x = c.node x := by
        intro x hx
        exact upd_other _ _ (fun hxe => hpmem (hxe ▸ List.mem_cons_of_mem value hx))
      have hseg2' : cP.IsChainSeg ((c.node value).next) t₂ c.sentinel :=
        isChainSeg_congr hnodeq hseg2
      have hfuel' : t₂.length < fuel := by
        simp only [List.nil_append, List.length_cons, List.length_singleton] at hfuel
        omega
      refine removeScan_noop hseg2' ?_ ?_ hfuel'
      · intro x hx
        exact hsent x (by simp [hx])
      · intro x hx
        rw [hnodeq x hx]
        rcases isChainSeg_next hseg2 x hx with hm | hm
        · exact fun he => hvt (he ▸ hm)
        · exact fun he => hvs (he ▸ hm)
  | cons q rest ih =>
    intro cur hseg1 hseg2 hnd hsent fuel hfuel
    have hl : (q :: rest) ++ [p] = q :: (rest ++ [p]) := by simp
    rw [hl] at hseg1
    obtain ⟨hcq, htail⟩ := hseg1
    have hqs : q ≠ c.sentinel := hsent q (by simp)
    have hvnot : value ∉ (q :: rest) ++ [p] := by
      intro hmem
      exact (List.disjoint_of_nodup_append hnd) hmem (List.mem_cons_self value t₂)
    have hqnextne : (c.node q).next ≠ value := by
      cases hrp : rest ++ [p] with
      | nil => exact absurd hrp (by simp)
      | cons m l' =>
        rw [hrp] at htail
        obtain ⟨hm, -⟩ := htail
        rw [hm]
        intro he
        apply hvnot
        have hmem : m ∈ rest ++ [p] := hrp ▸ List.mem_cons_self m l'
        rw [hl]
        exact he ▸ List.mem_cons_of_mem q hmem
    cases fuel with
    | zero => exact absurd hfuel (by simp)
    | succ fuel =>
      rw [hcq]
      simp only [removeScan, if_neg hqs]
      rw [if_neg hqnextne]
      have hnd' : ((rest ++ [p]) ++ value :: t₂).Nodup := by
        have : ((q :: rest) ++ [p]) ++ value :: t₂ = q :: ((rest ++ [p]) ++ value :: t₂) := by
          simp
        exact (List.nodup_cons.mp (this ▸ hnd)).2
      have hsent' : ∀ x ∈ (rest ++ [p]) ++ value :: t₂, x ≠ c.sentinel := by
        intro x hx
        apply hsent
        have hlist : ((q :: rest) ++ [p]) ++ value :: t₂ =
            q :: ((rest ++ [p]) ++ value :: t₂) := by simp
        rw [hlist]
        exact List.mem_cons_of_mem q hx
      have hfuel' : (rest ++ [p]).length + t₂.length < fuel := by
        simp only [List.cons_append, List.length_cons, List.length_append,
          List.length_singleton] at hfuel ⊢
        omega
      exact ih htail hseg2 hnd' hsent' hfuel'

/-- Well-formedness transfers to a state whose chains are duplicate-free
sub-collections of the old chains of the same buckets. -/
theorem wf_of_chain_sub {c c' : HC} (hw : c.WF)
    (hbc : c'.bucketCount = c.bucketCount)
    (hnc : c'.nodeCount = c.nodeCount)
    (hsent : c'.sentinel = c.sentinel)
    (hseg : ∀ b, b < c'.bucketCount →
      IsChainSeg c' (c'.bucketFirst b) (c'.bucketChain b) c'.sentinel)
    (hnd : ∀ b, b < c'.bucketCount → (c'.bucketChain b).Nodup)
    (hsub : ∀ b, b < c'.bucketCount → ∀ x ∈ c'.bucketChain b, x ∈ c.bucketChain b) :
    c'.WF := by
  obtain ⟨hns0, -, hlt0, -, hdisj0⟩ := hw
  refine ⟨?_, hseg, ?_, hnd, ?_⟩
  · rw [hnc, hsent]
    exact hns0
  · intro b hb x hx
    rw [hnc]
    exact hlt0 b (hbc ▸ hb) x (hsub b hb x hx)
  · intro b hb b' hb' hne x hx hx'
    exact hdisj0 b (hbc ▸ hb) b' (hbc ▸ hb') hne x (hsub b hb x hx) (hsub b' hb' x hx')

/-- Effect of a valid `remove(h, s)` (a live entry of the queried bucket
whose stored fragment matches): the queried bucket's chain loses exactly
`s`, every other chain is untouched, no stored fragment changes, and
well-formedness is preserved. -/
theorem remove_spec {c : HC} (hw : c.WF) (hbc : 0 < c.bucketCount) {h s : Nat}
    (hsin : s ∈ c.bucketChain (c.bucketOf h))
    (hfrag : (c.node s).hash = c.high h) :
    (c.remove h s).bucketChain (c.bucketOf h) = (c.bucketChain (c.bucketOf h)).erase s ∧
    (∀ b, b < c.bucketCount → b ≠ c.bucketOf h →
      (c.remove h s).bucketChain b = c.bucketChain b) ∧
    (∀ x, ((c.remove h s).node x).hash = (c.node x).hash) ∧
    (c.remove h s).WF := by
  have hwf := hw
  obtain ⟨hns, hseg, hlt, hnd, hdisj⟩ := hw
  have hb : c.bucketOf h < c.bucketCount := Nat.mod_lt _ hbc
  have helem : ∀ y ∈ c.bucketChain (c.bucketOf h), y ≠ c.sentinel :=
    fun y hy => Nat.ne_of_lt (Nat.lt_trans (hlt _ hb y hy) hns)
  have hssent : s ≠ c.sentinel := helem s hsin
  have hlen : (c.bucketChain (c.bucketOf h)).length ≤ c.nodeCount :=
    length_le_of_nodup_lt (hnd _ hb) (hlt _ hb)
  have hguard : ¬((c.node s).hash ≠ c.high h) := by simp [hfrag]
  by_cases hhead : c.bucketFirst (c.bucketOf h) = s
  · -- the removed slot is the chain head
    have hrm : c.remove h s =
        { c with bucketFirst := upd c.bucketFirst (c.bucketOf h) ((c.node s).next) } := by
      simp only [remove]
      rw [if_neg hguard, if_pos hhead]
    obtain ⟨x, xs, hcons⟩ : ∃ x xs, c.bucketChain (c.bucketOf h) = x :: xs := by
      cases hc : c.bucketChain (c.bucketOf h) with
      | nil =>
        rw [hc] at hsin
        exact absurd hsin (List.not_mem_nil s)
      | cons x xs => exact ⟨x, xs, rfl⟩
    have hsegl := hseg _ hb
    rw [hcons] at hsegl
    obtain ⟨hx1, htail⟩ := hsegl
    have hxs : x = s := by rw [← hx1, hhead]
    rw [hxs] at hcons htail
    have hndl := hnd _ hb
    rw [hcons] at hndl
    obtain ⟨hxnotin, hndxs⟩ := List.nodup_cons.mp hndl
    have hchainb : (c.remove h s).bucketChain (c.bucketOf h) = xs := by
      rw [hrm]
      show chainF _ (upd c.bucketFirst (c.bucketOf h) ((c.node s).next) (c.bucketOf h))
        c.nodeCount = xs
      rw [upd_same, chainF_setBuckets]
      refine chainF_eq_of_seg htail ?_ c.nodeCount ?_
      · intro y hy
        exact helem y (hcons ▸ List.mem_cons_of_mem s hy)
      · have := hcons ▸ hlen
        simp only [List.length_cons] at this
        omega
    have hchaino : ∀ b, b < c.bucketCount → b ≠ c.bucketOf h →
        (c.remove h s).bucketChain b = c.bucketChain b := by
      intro b hbb hbne
      rw [hrm]
      show chainF _ (upd c.bucketFirst (c.bucketOf h) ((c.node s).next) b) c.nodeCount = _
      rw [upd_other _ _ hbne, chainF_setBuckets]
      rfl
    have hbcnt : (c.remove h s).bucketCount = c.bucketCount := by rw [hrm]
    refine ⟨?_, hchaino, ?_, ?_⟩
    · rw [hchainb, hcons, List.erase_cons_head]
    · intro y
      rw [hrm]
    · refine wf_of_chain_sub hwf hbcnt (by rw [hrm]) (by rw [hrm]; rfl) ?_ ?_ ?_
      · intro b hbb
        rw [hbcnt] at hbb
        by_cases hbne : b = c.bucketOf h
        · rw [hbne, hchainb, hrm]
          show IsChainSeg _
            (upd c.bucketFirst (c.bucketOf h) ((c.node s).next) (c.bucketOf h)) xs _
          rw [upd_same]
          exact isChainSeg_setBuckets htail
        · rw [hchaino b hbb hbne, hrm]
          show IsChainSeg _
            (upd c.bucketFirst (c.bucketOf h) ((c.node s).next) b) _ _
          rw [upd_other _ _ hbne]
          exact isChainSeg_setBuckets (hseg _ hbb)
      · intro b hbb
        rw [hbcnt] at hbb
        by_cases hbne : b = c.bucketOf h
        · rw [hbne, hchainb]
          exact hndxs
        · rw [hchaino b hbb hbne]
          exact hnd _ hbb
      · intro b hbb y hy
        rw [hbcnt] at hbb
        by_cases hbne : b = c.bucketOf h
        · rw [hbne, hchainb] at hy
          rw [hbne, hcons]
          exact List.mem_cons_of_mem s hy
        · rw [hchaino b hbb hbne] at hy
          exact hy
  · -- the removed slot is linked from a predecessor; the scan loop runs
    obtain ⟨t₁, t₂, hdecomp⟩ := List.append_of_mem hsin
    have hsegl := hseg _ hb
    rw [hdecomp] at hsegl
    obtain ⟨m, hseg1, hseg23⟩ := isChainSeg_append.mp hsegl
    obtain ⟨hms, hseg2⟩ := hseg23
    rw [hms] at hseg1
    have ht1ne : t₁ ≠ [] := by
      intro he
      rw [he] at hseg1
      exact hhead hseg1
    obtain ⟨l₁, p, ht1⟩ : ∃ l₁ p, t₁ = l₁ ++ [p] := by
      rcases List.eq_nil_or_concat' t₁ with he | ⟨L, bb, hLb⟩
      · exact absurd he ht1ne
      · exact ⟨L, bb, hLb⟩
    have hndl := hnd _ hb
    rw [hdecomp] at hndl
    have hst1 : s ∉ t₁ := by
      intro hmem
      exact (List.disjoint_of_nodup_append hndl) hmem (List.mem_cons_self s t₂)
    have hsentl : ∀ y ∈ t₁ ++ s :: t₂, y ≠ c.sentinel :=
      fun y hy => helem y (hdecomp ▸ hy)
    have hlenl : t₁.length + t₂.length < c.nodeCount + 1 := by
      have := hdecomp ▸ hlen
      simp only [List.length_append, List.length_cons] at this
      omega
    have hpint : p ∈ t₁ := ht1 ▸ List.mem_append_right l₁ (List.mem_singleton_self p)
    have hpnots : p ∉ s :: t₂ := fun hmem =>
      (List.disjoint_of_nodup_append hndl) hpint hmem
    have hrm : c.remove h s =
        { c with node := upd c.node p ⟨(c.node p).hash, (c.node s).next⟩ } := by
      simp only [remove]
      rw [if_neg hguard, if_neg hhead]
      refine removeScan_spec hssent (ht1 ▸ hseg1) hseg2 ?_ ?_ ?_
      · rw [← ht1, ← hdecomp]
        exact hnd _ hb
      · intro y hy
        rw [← ht1] at hy
        exact hsentl y hy
      · rw [← ht1]
        exact hlenl
    have hbcnt : (c.remove h s).bucketCount = c.bucketCount := by rw [hrm]
    have hnodeo : ∀ y, y ≠ p → (c.remove h s).node y = c.node y := by
      intro y hy
      rw [hrm]
      exact upd_other _ _ hy
    have hnodep : ((c.remove h s).node p).next = (c.node s).next := by
      rw [hrm]
      show (upd c.node p ⟨(c.node p).hash, (c.node s).next⟩ p).next = _
      rw [upd_same]
    have hseg1' : IsChainSeg (c.remove h s) (c.bucketFirst (c.bucketOf h)) t₁
        ((c.node s).next) := by
      rw [ht1]
      refine isChainSeg_retarget ?_ hnodeo hnodep (ht1 ▸ hseg1)
      have hndt1 : t₁.Nodup := (List.sublist_append_left t₁ (s :: t₂)).nodup hndl
      exact ht1 ▸ hndt1
    have hseg2' : IsChainSeg (c.remove h s) ((c.node s).next) t₂ c.sentinel :=
      isChainSeg_congr
        (fun y hy => hnodeo y (fun hyp => hpnots (hyp ▸ List.mem_cons_of_mem s hy)))
        hseg2
    have hsegfull : IsChainSeg (c.remove h s) (c.bucketFirst (c.bucketOf h)) (t₁ ++ t₂)
        c.sentinel :=
      isChainSeg_append.mpr ⟨(c.node s).next, hseg1', hseg2'⟩
    have hfirsteq : ∀ b, (c.remove h s).bucketFirst b = c.bucketFirst b := by
      intro b
      rw [hrm]
    have hchainb : (c.remove h s).bucketChain (c.bucketOf h) = t₁ ++ t₂ := by
      have hsf := hsegfull
      rw [hrm] at hsf ⊢
      refine chainF_eq_of_seg hsf ?_ c.nodeCount ?_
      · intro y hy
        rcases List.mem_append.mp hy with hy | hy
        · exact hsentl y (List.mem_append_left _ hy)
        · exact hsentl y (List.mem_append_right _ (List.mem_cons_of_mem s hy))
      · simp only [List.length_append]
        omega
    have hchaino : ∀ b, b < c.bucketCount → b ≠ c.bucketOf h →
        (c.remove h s).bucketChain b = c.bucketChain b := by
      intro b hbb hbne
      have hpnotb : p ∉ c.bucketChain b := by
        intro hmem
        exact hdisj (c.bucketOf h) hb b hbb (fun he => hbne he.symm) p
          (hdecomp ▸ List.mem_append_left _ hpint) hmem
      have hsgb : IsChainSeg (c.remove h s) (c.bucketFirst b) (c.bucketChain b)
          c.sentinel :=
        isChainSeg_congr (fun y hy => hnodeo y (fun hyp => hpnotb (hyp ▸ hy))) (hseg _ hbb)
      rw [hrm] at hsgb ⊢
      exact chainF_eq_of_seg hsgb
        (fun y hy => Nat.ne_of_lt (Nat.lt_trans (hlt _ hbb y hy) hns)) c.nodeCount
        (length_le_of_nodup_lt (hnd _ hbb) (hlt _ hbb))
    have hmemsub : ∀ y ∈ t₁ ++ t₂, y ∈ c.bucketChain (c.bucketOf h) := by
      intro y hy
      rw [hdecomp]
      rcases List.mem_append.mp hy with hy | hy
      · exact List.mem_append_left _ hy
      · exact List.mem_append_right _ (List.mem_cons_of_mem s hy)
    refine ⟨?_, hchaino, ?_, ?_⟩
    · rw [hchainb, hdecomp, List.erase_append_right _ hst1, List.erase_cons_head]
    · intro y
      by_cases hyp : y = p
      · subst hyp
        rw [hrm]
        show (upd c.node y ⟨(c.node y).hash, (c.node s).next⟩ y).hash = _
        rw [upd_same]
      · rw [hnodeo y hyp]
    · refine wf_of_chain_sub hwf hbcnt (by rw [hrm]) (by rw [hrm]; rfl) ?_ ?_ ?_
      · intro b hbb
        rw [hbcnt] at hbb
        have hsent' : (c.remove h s).sentinel = c.sentinel := by rw [hrm]; rfl
        rw [hsent']
        by_cases hbne : b = c.bucketOf h
        · rw [hbne, hchainb, hfirsteq]
          exact hsegfull
        · rw [hchaino b hbb hbne, hfirsteq]
          exact isChainSeg_congr
            (fun y hy => hnodeo y (fun hyp => (by
              exact hdisj (c.bucketOf h) hb b hbb (fun he => hbne he.symm) p
                (hdecomp ▸ List.mem_append_left _ hpint) (hyp ▸ hy))))
            (hseg _ hbb)
      · intro b hbb
        rw [hbcnt] at hbb
        by_cases hbne : b = c.bucketOf h
        · rw [hbne, hchainb]
          exact ((List.sublist_cons_self s t₂).append_left t₁).nodup hndl
        · rw [hchaino b hbb hbne]
          exact hnd _ hbb
      · intro b hbb y hy
        rw [hbcnt] at hbb
        by_cases hbne : b = c.bucketOf h
        · rw [hbne, hchainb] at hy
          rw [hbne]
          exact hmemsub y hy
        · rw [hchaino b hbb hbne] at hy
          exact hy

theorem chainsFrom_stop {c : HC} {b : Nat} (h : ¬b < c.bucketCount) :
    c.chainsFrom b = [] := by
  rw [chainsFrom]
  simp [h]

theorem chainsFrom_step {c : HC} {b : Nat} (h : b < c.bucketCount) :
    c.chainsFrom b = c.bucketChain b ++ c.chainsFrom (b + 1) := by
  rw [chainsFrom]
  simp [h]

theorem mem_chainsFrom {c : HC} :
    ∀ n b, c.bucketCount - b ≤ n → ∀ x,
      (x ∈ c.chainsFrom b ↔ ∃ b', b ≤ b' ∧ b' < c.bucketCount ∧ x ∈ c.bucketChain b') := by
  intro n
  induction n with
  | zero =>
    intro b hn x
    have hbe : ¬b < c.bucketCount := by omega
    rw [chainsFrom_stop hbe]
    constructor
    · intro hx
      exact absurd hx (List.not_mem_nil x)
    · rintro ⟨b', hb1, hb2, -⟩
      omega
  | succ n ih =>
    intro b hn x
    by_cases hb : b < c.bucketCount
    · rw [chainsFrom_step hb, List.mem_append, ih (b + 1) (by omega) x]
      constructor
      · rintro (hx | ⟨b', hb1, hb2, hx⟩)
        · exact ⟨b, Nat.le_refl b, hb, hx⟩
        · exact ⟨b', by omega, hb2, hx⟩
      · rintro ⟨b', hb1, hb2, hx⟩
        by_cases hbe : b' = b
        · exact Or.inl (hbe ▸ hx)
        · exact Or.inr ⟨b', by omega, hb2, hx⟩
    · rw [chainsFrom_stop hb]
      constructor
      · intro hx
        exact absurd hx (List.not_mem_nil x)
      · rintro ⟨b', hb1, hb2, -⟩
        omega

theorem chainsFrom_nodup {c : HC} (hw : c.WF) :
    ∀ n b, c.bucketCount - b ≤ n → (c.chainsFrom b).Nodup := by
  obtain ⟨-, -, -, hnd, hdisj⟩ := hw
  intro n
  induction n with
  | zero =>
    intro b hn
    rw [chainsFrom_stop (by omega)]
    exact List.nodup_nil
  | succ n ih =>
    intro b hn
    by_cases hb : b < c.bucketCount
    · rw [chainsFrom_step hb]
      refine List.Nodup.append (hnd b hb) (ih (b + 1) (by omega)) ?_
      intro x hx hx'
      rcases (mem_chainsFrom (c.bucketCount - (b + 1)) (b + 1) (Nat.le_refl _) x).mp hx'
        with ⟨b', hb1, hb2, hxb'⟩
      exact hdisj b hb b' hb2 (by omega) x hx hxb'
    · rw [chainsFrom_stop hb]
      exact List.nodup_nil

/-- The bucket-advance scan of `nextElement`, characterised against the
concatenation of the remaining chains. -/
theorem scanB_spec {c : HC} (hw : c.WF) :
    ∀ n b, c.bucketCount - b ≤ n →
      (c.chainsFrom b = [] → (c.scanB b).1 = c.sentinel) ∧
      (∀ y t, c.chainsFrom b = y :: t → ∃ b' ys, c.scanB b = (y, b') ∧ b ≤ b' ∧
        b' < c.bucketCount ∧ c.bucketFirst b' = y ∧ c.bucketChain b' = y :: ys ∧
        t = ys ++ c.chainsFrom (b' + 1)) := by
  have hwf := hw
  obtain ⟨hns, hseg, hlt, -, -⟩ := hw
  intro n
  induction n with
  | zero =>
    intro b hn
    have hbe : ¬b < c.bucketCount := by omega
    refine ⟨fun _ => ?_, fun y t hyt => ?_⟩
    · rw [scanB, dif_neg hbe]
    · rw [chainsFrom_stop hbe] at hyt
      exact absurd hyt (by simp)
  | succ n ih =>
    intro b hn
    by_cases hb : b < c.bucketCount
    · by_cases hf : c.bucketFirst b = c.sentinel
      · have hch : c.bucketChain b = [] := by
          show c.chainF (c.bucketFirst b) c.nodeCount = []
          rw [hf]
          exact chainF_sentinel _ _
        have hstep : c.chainsFrom b = c.chainsFrom (b + 1) := by
          rw [chainsFrom_step hb, hch, List.nil_append]
        have hsc : c.scanB b = c.scanB (b + 1) := by
          rw [scanB, dif_pos hb, if_neg (by simpa using hf)]
        obtain ⟨ih1, ih2⟩ := ih (b + 1) (by omega)
        refine ⟨fun he => ?_, fun y t hyt => ?_⟩
        · rw [hsc]
          exact ih1 (by rw [← hstep]; exact he)
        · rw [hstep] at hyt
          obtain ⟨b', ys, h1, h2, h3, h4, h5, h6⟩ := ih2 y t hyt
          exact ⟨b', ys, by rw [hsc]; exact h1, by omega, h3, h4, h5, h6⟩
      · obtain ⟨y, ys, hch⟩ : ∃ y ys, c.bucketChain b = y :: ys := by
          cases hc : c.bucketChain b with
          | nil =>
            have := hseg b hb
            rw [hc] at this
            exact absurd this hf
          | cons y ys => exact ⟨y, ys, rfl⟩
        have hfy : c.bucketFirst b = y := by
          have := hseg b hb
          rw [hch] at this
          exact this.1
        have hsc : c.scanB b = (y, b) := by
          rw [scanB, dif_pos hb, if_pos (by simpa using hf), hfy]
        refine ⟨fun he => ?_, fun z t hyt => ?_⟩
        · rw [chainsFrom_step hb, hch] at he
          exact absurd he (by simp)
        · rw [chainsFrom_step hb, hch] at hyt
          injection hyt with h1 h2
          exact ⟨b, ys, h1 ▸ hsc, Nat.le_refl b, hb, h1 ▸ hfy, h1 ▸ hch, h2.symm⟩
    · have hbe := hb
      refine ⟨fun _ => ?_, fun y t hyt => ?_⟩
      · rw [scanB, dif_neg hbe]
      · rw [chainsFrom_stop hbe] at hyt
        exact absurd hyt (by simp)

/-- The scan of `begin()`, characterised against the concatenation of the
remaining chains (for an in-range starting bucket). -/
theorem beginLoop_spec {c : HC} (hw : c.WF) :
    ∀ n b, c.bucketCount - b ≤ n → b < c.bucketCount →
      (c.chainsFrom b = [] → c.beginLoop b = BeginRes.endIt) ∧
      (∀ y t, c.chainsFrom b = y :: t → ∃ b' ys, c.beginLoop b = BeginRes.it y b' ∧
        b ≤ b' ∧ b' < c.bucketCount ∧ c.bucketFirst b' = y ∧
        c.bucketChain b' = y :: ys ∧ t = ys ++ c.chainsFrom (b' + 1)) := by
  have hwf := hw
  obtain ⟨hns, hseg, hlt, -, -⟩ := hw
  intro n
  induction n with
  | zero =>
    intro b hn hb
    omega
  | succ n ih =>
    intro b hn hb
    by_cases hf : c.bucketFirst b = c.sentinel
    · have hch : c.bucketChain b = [] := by
        show c.chainF (c.bucketFirst b) c.nodeCount = []
        rw [hf]
        exact chainF_sentinel _ _
      have hstep : c.chainsFrom b = c.chainsFrom (b + 1) := by
        rw [chainsFrom_step hb, hch, List.nil_append]
      by_cases hlast : b + 1 = c.bucketCount
      · have hbl : c.beginLoop b = BeginRes.endIt := by
          rw [beginLoop, dif_pos hb, if_pos hf, if_pos hlast]
        have hrest : c.chainsFrom (b + 1) = [] := chainsFrom_stop (by omega)
        refine ⟨fun _ => hbl, fun y t hyt => ?_⟩
        rw [hstep, hrest] at hyt
        exact absurd hyt (by simp)
      · have hbl : c.beginLoop b = c.beginLoop (b + 1) := by
          rw [beginLoop, dif_pos hb, if_pos hf, if_neg hlast]
        obtain ⟨ih1, ih2⟩ := ih (b + 1) (by omega) (by omega)
        refine ⟨fun he => ?_, fun y t hyt => ?_⟩
        · rw [hbl]
          exact ih1 (by rw [← hstep]; exact he)
        · rw [hstep] at hyt
          obtain ⟨b', ys, h1, h2, h3, h4, h5, h6⟩ := ih2 y t hyt
          exact ⟨b', ys, by rw [hbl]; exact h1, by omega, h3, h4, h5, h6⟩
    · obtain ⟨y, ys, hch⟩ : ∃ y ys, c.bucketChain b = y :: ys := by
        cases hc : c.bucketChain b with
        | nil =>
          have := hseg b hb
          rw [hc] at this
          exact absurd this hf
        | cons y ys => exact ⟨y, ys, rfl⟩
      have hfy : c.bucketFirst b = y := by
        have := hseg b hb
        rw [hch] at this
        exact this.1
      have hbl : c.beginLoop b = BeginRes.it y b := by
        rw [beginLoop, dif_pos hb, if_neg hf, hfy]
      refine ⟨fun he => ?_, fun z t hyt => ?_⟩
      · rw [chainsFrom_step hb, hch] at he
        exact absurd he (by simp)
      · rw [chainsFrom_step hb, hch] at hyt
        injection hyt with h1 h2
        exact ⟨b, ys, h1 ▸ hbl, Nat.le_refl b, hb, h1 ▸ hfy, h1 ▸ hch, h2.symm⟩

theorem iterGlobal_sentinel (c : HC) (b : Nat) :
    ∀ k, c.iterGlobal (c.sentinel, b) k = [] := by
  intro k
  cases k with
  | zero => rfl
  | succ k => simp [iterGlobal]

/-- The global iterator, positioned at a nonempty suffix of bucket `b`'s
chain, visits that suffix and then every later chain in ascending bucket
order, and then becomes invalid. -/
theorem iterGlobal_eq {c : HC} (hw : c.WF) :
    ∀ k b cur x xs, b < c.bucketCount →
      c.IsChainSeg cur (x :: xs) c.sentinel →
      (∀ y ∈ x :: xs, y ∈ c.bucketChain b) →
      (x :: xs).length + (c.chainsFrom (b + 1)).length < k →
      c.iterGlobal (cur, b) k = (x :: xs) ++ c.chainsFrom (b + 1) := by
  have hwf := hw
  obtain ⟨hns, hseg, hlt, -, -⟩ := hw
  intro k
  induction k with
  | zero =>
    intro b cur x xs _ _ _ hk
    omega
  | succ k ih =>
    intro b cur x xs hb hsegx hsub hk
    obtain ⟨hcx, htail⟩ := hsegx
    have hxst : x ≠ c.sentinel :=
      Nat.ne_of_lt (Nat.lt_trans (hlt b hb x (hsub x (List.mem_cons_self x xs))) hns)
    rw [hcx]
    simp only [iterGlobal, if_neg hxst]
    cases xs with
    | cons y ys =>
      obtain ⟨hy, hrest⟩ := htail
      have hyin : y ∈ c.bucketChain b :=
        hsub y (List.mem_cons_of_mem x (List.mem_cons_self y ys))
      have hyne : (c.node x).next ≠ c.sentinel := by
        rw [hy]
        exact Nat.ne_of_lt (Nat.lt_trans (hlt b hb y hyin) hns)
      have hne : c.nextElement x b = ((c.node x).next, b) := by
        rw [nextElement, if_pos hyne]
      rw [hne, ih b ((c.node x).next) y ys hb ⟨hy, hrest⟩
        (fun z hz => hsub z (List.mem_cons_of_mem x hz)) ?_]
      · rfl
      · simp only [List.length_cons] at hk ⊢
        omega
    | nil =>
      have hxnext : (c.node x).next = c.sentinel := htail
      have hne : c.nextElement x b = c.scanB (b + 1) := by
        rw [nextElement, if_neg (by simp [hxnext])]
      rw [hne]
      obtain ⟨hsc1, hsc2⟩ := scanB_spec hwf (c.bucketCount - (b + 1)) (b + 1) (Nat.le_refl _)
      cases hcf : c.chainsFrom (b + 1) with
      | nil =>
        have h1 := hsc1 hcf
        rcases hsb : c.scanB (b + 1) with ⟨pos2, b2⟩
        rw [hsb] at h1
        simp only at h1
        rw [h1, iterGlobal_sentinel]
        simp
      | cons y t =>
        obtain ⟨b', ys, hsb, hle, hblt, hfy, hch, ht⟩ := hsc2 y t hcf
        rw [hsb]
        have hsegy : c.IsChainSeg y (y :: ys) c.sentinel := by
          have hsg := hseg b' hblt
          rw [hch, hfy] at hsg
          exact hsg
        rw [ih b' y y ys hblt hsegy (fun z hz => hch ▸ hz) ?_]
        · rw [ht]
          simp
        · have hk' := hk
          rw [hcf, ht] at hk'
          simp only [List.length_cons, List.length_append, List.length_nil] at hk' ⊢
          omega

/-- The full `begin()`-to-`end()` traversal visits exactly the
concatenation of all bucket chains, in ascending bucket order. -/
theorem globalList_eq {c : HC} (hw : c.WF) (hbc : 0 < c.bucketCount) :
    c.globalList = c.chainsFrom 0 := by
  have hwf := hw
  obtain ⟨hns, hseg, hlt, -, -⟩ := hw
  have htot : (c.chainsFrom 0).length ≤ c.nodeCount := by
    refine length_le_of_nodup_lt (chainsFrom_nodup hwf c.bucketCount 0 (by omega)) ?_
    intro x hx
    rcases (mem_chainsFrom c.bucketCount 0 (by omega) x).mp hx with ⟨b', -, hb2, hxb⟩
    exact hlt b' hb2 x hxb
  obtain ⟨hb1, hb2⟩ := beginLoop_spec hwf c.bucketCount 0 (by omega) hbc
  cases hcf : c.chainsFrom 0 with
  | nil =>
    have hbit : c.beginIt = BeginRes.endIt := hb1 hcf
    unfold globalList
    rw [hbit]
  | cons y t =>
    obtain ⟨b', ys, hbit, -, hblt, hfy, hch, ht⟩ := hb2 y t hcf
    have hbit' : c.beginIt = BeginRes.it y b' := hbit
    have hsegy : c.IsChainSeg y (y :: ys) c.sentinel := by
      have hsg := hseg b' hblt
      rw [hch, hfy] at hsg
      exact hsg
    unfold globalList
    rw [hbit']
    show c.iterGlobal (y, b') (c.nodeCount + 1) = y :: t
    rw [iterGlobal_eq hwf (c.nodeCount + 1) b' y y ys hblt hsegy (fun z hz => hch ▸ hz) ?_]
    · rw [ht]
      rfl
    · have hlen0 := htot
      rw [hcf, ht] at hlen0
      simp only [List.length_cons, List.length_append] at hlen0 ⊢
      omega

theorem matchList_sublist (c : HC) (f : Nat) :
    ∀ l : List Nat, List.Sublist (c.matchList f l) l := by
  intro l
  induction l with
  | nil => exact List.Sublist.refl []
  | cons x xs ih =>
    by_cases hm : (c.node x).hash = f
    · simpa [matchList, hm] using List.Sublist.cons₂ x ih
    · simp only [matchList, if_neg hm]
      exact ih.cons x

theorem visited_sentinel (c : HC) : ∀ k, c.visited c.sentinel k = [] := by
  intro k
  cases k with
  | zero => rfl
  | succ k => simp [visited]

theorem findNextFuel_start_sentinel (c : HC) (f : Nat) :
    ∀ fuel, findNextFuel c f c.sentinel fuel = c.sentinel := by
  intro fuel
  cases fuel with
  | zero => rfl
  | succ fuel => simp [findNextFuel]

/-- The scan loop of `remove` only ever rewrites node link fields. -/
theorem removeScan_fields : ∀ (fuel : Nat) (c : HC) (v cur : Nat),
    (c.removeScan v cur fuel).w = c.w ∧ (c.removeScan v cur fuel).hw = c.hw ∧
    (c.removeScan v cur fuel).bucketCount = c.bucketCount ∧
    (c.removeScan v cur fuel).nodeCount = c.nodeCount ∧
    (c.removeScan v cur fuel).bucketFirst = c.bucketFirst := by
  intro fuel
  induction fuel with
  | zero =>
    intro c v cur
    exact ⟨rfl, rfl, rfl, rfl, rfl⟩
  | succ fuel ih =>
    intro c v cur
    simp only [removeScan]
    by_cases hc : cur = c.sentinel
    · rw [if_pos hc]
      exact ⟨rfl, rfl, rfl, rfl, rfl⟩
    · rw [if_neg hc]
      by_cases hn : (c.node cur).next = v
      · rw [if_pos hn]
        obtain ⟨h1, h2, h3, h4, h5⟩ :=
          ih { c with node := upd c.node cur ⟨(c.node cur).hash, (c.node v).next⟩ } v
            ((upd c.node cur ⟨(c.node cur).hash, (c.node v).next⟩ cur).next)
        exact ⟨h1, h2, h3, h4, h5⟩
      · rw [if_neg hn]
        exact ih c v ((c.node cur).next)

/-- `remove` never changes the capacity parameters. -/
theorem remove_fields (c : HC) (h s : Nat) :
    (c.remove h s).w = c.w ∧ (c.remove h s).hw = c.hw ∧
    (c.remove h s).bucketCount = c.bucketCount ∧
    (c.remove h s).nodeCount = c.nodeCount := by
  simp only [remove]
  by_cases hg : (c.node s).hash ≠ c.high h
  · rw [if_pos hg]
    exact ⟨rfl, rfl, rfl, rfl⟩
  · rw [if_neg hg]
    by_cases hh : c.bucketFirst (c.bucketOf h) = s
    · rw [if_pos hh]
      exact ⟨rfl, rfl, rfl, rfl⟩
    · rw [if_neg hh]
      obtain ⟨h1, h2, h3, h4, -⟩ :=
        removeScan_fields (c.nodeCount + 1) c s (c.bucketFirst (c.bucketOf h))
      exact ⟨h1, h2, h3, h4⟩

theorem high_eq_of_hw {c c' : HC} (h : c'.hw = c.hw) : ∀ x, c'.high x = c.high x := by
  intro x
  rw [high, high, h]

theorem bucketOf_eq_of {c c' : HC} (h1 : c'.w = c.w) (h2 : c'.bucketCount = c.bucketCount) :
    ∀ x, c'.bucketOf x = c.bucketOf x := by
  intro x
  rw [bucketOf, bucketOf, low, low, h1, h2]

/-- Folding `insert` over a duplicate-free list of fresh valid slots, all
under one hash: the queried bucket's chain gains the slots in reverse
insertion order (LIFO), other chains are unchanged, each inserted node
stores the hash fragment, untouched nodes are unchanged, the capacity
parameters are unchanged, and well-formedness is preserved. -/
theorem insertAll_spec {h : Nat} :
    ∀ (l : List Nat) (c : HC), c.WF → 0 < c.bucketCount →
    (∀ v ∈ l, v < c.nodeCount) → l.Nodup → (∀ v ∈ l, c.Unoccupied v) →
    (c.insertAll h l).WF ∧
    (c.insertAll h l).bucketChain (c.bucketOf h) =
      l.reverse ++ c.bucketChain (c.bucketOf h) ∧
    (∀ b, b < c.bucketCount → b ≠ c.bucketOf h →
      (c.insertAll h l).bucketChain b = c.bucketChain b) ∧
    (∀ v ∈ l, ((c.insertAll h l).node v).hash = c.high h) ∧
    (∀ x, x ∉ l → (c.insertAll h l).node x = c.node x) ∧
    ((c.insertAll h l).w = c.w ∧ (c.insertAll h l).hw = c.hw ∧
     (c.insertAll h l).bucketCount = c.bucketCount ∧
     (c.insertAll h l).nodeCount = c.nodeCount) := by
  intro l
  induction l with
  | nil =>
    intro c hw _ _ _ _
    refine ⟨hw, by simp [insertAll], fun b _ _ => rfl, ?_, fun x _ => rfl,
      rfl, rfl, rfl, rfl⟩
    intro v hv
    exact absurd hv (List.not_mem_nil v)
  | cons v vs ih =>
    intro c hw hbc hvlt hnd hun
    have hv : v < c.nodeCount := hvlt v (List.mem_cons_self v vs)
    have hunv : c.Unoccupied v := hun v (List.mem_cons_self v vs)
    obtain ⟨hvnotin, hndvs⟩ := List.nodup_cons.mp hnd
    have hwf1 : (c.insert h v).WF := insert_wf hw hbc hv hunv h
    have hsame := insert_chain_same hw hbc hv hunv h
    have hother := insert_chain_other hw hunv h
    have hnodev : (c.insert h v).node v = ⟨c.high h, c.bucketFirst (c.bucketOf h)⟩ :=
      upd_same _ _ _
    have hnodeo : ∀ x, x ≠ v → (c.insert h v).node x = c.node x :=
      fun x hx => upd_other _ _ hx
    have hb : c.bucketOf h < c.bucketCount := Nat.mod_lt _ hbc
    have hun1 : ∀ u ∈ vs, (c.insert h v).Unoccupied u := by
      intro u hu b hbb
      have hbb' : b < c.bucketCount := hbb
      by_cases hbe : b = c.bucketOf h
      · rw [hbe, hsame]
        intro hmem
        rcases List.mem_cons.mp hmem with rfl | hmem
        · exact hvnotin hu
        · exact hun u (List.mem_cons_of_mem v hu) _ hb hmem
      · rw [hother b hbb' hbe]
        exact hun u (List.mem_cons_of_mem v hu) b hbb'
    obtain ⟨ihWF, ihSame, ihOther, ihHash, ihUn, ihW, ihHw, ihBc, ihNc⟩ :=
      ih (c.insert h v) hwf1 hbc (fun u hu => hvlt u (List.mem_cons_of_mem v hu))
        hndvs hun1
    refine ⟨ihWF, ?_, ?_, ?_, ?_, ihW, ihHw, ihBc, ihNc⟩
    · calc (c.insertAll h (v :: vs)).bucketChain (c.bucketOf h)
          = vs.reverse ++ (c.insert h v).bucketChain (c.bucketOf h) := ihSame
        _ = vs.reverse ++ (v :: c.bucketChain (c.bucketOf h)) := by rw [hsame]
        _ = (v :: vs).reverse ++ c.bucketChain (c.bucketOf h) := by simp
    · intro b hbb hbne
      calc (c.insertAll h (v :: vs)).bucketChain b
          = (c.insert h v).bucketChain b := ihOther b hbb hbne
        _ = c.bucketChain b := hother b hbb hbne
    · intro u hu
      rcases List.mem_cons.mp hu with rfl | hu
      · rw [show (c.insertAll h (u :: vs)).node u = (c.insert h u).node u from
          ihUn u hvnotin, hnodev]
      · exact ihHash u hu
    · intro x hx
      have hx1 : x ∉ vs := fun hmem => hx (List.mem_cons_of_mem v hmem)
      have hx2 : x ≠ v := fun he => hx (he ▸ List.mem_cons_self v vs)
      calc (c.insertAll h (v :: vs)).node x
          = (c.insert h v).node x := ihUn x hx1
        _ = c.node x := hnodeo x hx2

/-- `findEmplaced` on an emplaced-but-unlinked slot reports exactly the
already-linked entries of the stashed bucket whose fragment matches, and
never the emplaced slot itself. -/
theorem findEmplaced_spec {c : HC} (hw : c.WF) (hbc : 0 < c.bucketCount) {v : Nat}
    (hun : c.Unoccupied v) (h : Nat) :
    (c.emplace h v).findEmplacedList v =
      c.matchList (c.high h) (c.bucketChain (c.bucketOf h)) ∧
    v ∉ (c.emplace h v).findEmplacedList v := by
  have hwemp : (c.emplace h v).WF := emplace_wf hw hun h
  have hb : c.bucketOf h < c.bucketCount := Nat.mod_lt _ hbc
  have hnodev : (c.emplace h v).node v = ⟨c.high h, c.bucketOf h⟩ := upd_same _ _ _
  have hch := emplace_chain hw hun h _ hb
  have hvin : v ∉ c.bucketChain (c.bucketOf h) := hun _ hb
  have h1 : (c.emplace h v).findEmplacedList v =
      (c.emplace h v).searchOut (c.high h) (c.bucketOf h) := by
    unfold findEmplacedList
    rw [hnodev]
  have h2 : (c.emplace h v).searchOut (c.high h) (c.bucketOf h) =
      c.matchList (c.high h) (c.bucketChain (c.bucketOf h)) := by
    rw [searchOut_eq hwemp hb (c.high h), hch]
    refine matchList_congr ?_
    intro x hx
    rw [show (c.emplace h v).node x = c.node x from
      upd_other _ _ (fun hxv => hvin (hxv ▸ hx))]
  refine ⟨h1.trans h2, ?_⟩
  rw [h1, h2]
  intro hmem
  exact hvin (mem_matchList.mp hmem).1

/-- One valid operation preserves well-formedness. -/
theorem step_wf {c c' : HC} (hw : c.WF) (hstep : Step c c') : c'.WF := by
  cases hstep with
  | ins h v hbc hv hun => exact insert_wf hw hbc hv hun h
  | emp h v hbc hv hun =>
    rw [emplace_insertEmplaced_eq_insert]
    exact insert_wf hw hbc hv hun h
  | rem h v hbc hvin hfrag => exact (remove_spec hw hbc hvin hfrag).2.2.2
  | clr => exact clear_wf hw

/-- Reachability by valid operations. -/
def Reach : HC → HC → Prop := Relation.ReflTransGen Step

/-- `begin()` on a zero-capacity container performs the out-of-range read
of `m_bucketList[0]` (the loop tests the bucket index only after the
read). -/
theorem beginIt_oob_of_zero {c : HC} (h : c.bucketCount = 0) :
    c.beginIt = BeginRes.oob 0 := by
  rw [beginIt, beginLoop, dif_neg (by omega)]

/-- After `clear()` every bucket head is the sentinel, `find` fails for
every hash, the traversal is empty, `begin() = end()` whenever the bucket
scan stays in range, and the capacity is unchanged. -/
theorem clear_spec (c : HC) (hbc : 0 < c.bucketCount) :
    (∀ b, (c.clear).bucketFirst b = c.sentinel) ∧
    (∀ h, (c.clear).findPos h = c.sentinel) ∧
    (∀ h, (c.clear).findList h = []) ∧
    (c.clear).beginIt = BeginRes.endIt ∧
    (c.clear).globalList = [] ∧
    (c.clear).nodeCount = c.nodeCount ∧ (c.clear).bucketCount = c.bucketCount := by
  have hfind : ∀ h, (c.clear).findPos h = c.sentinel :=
    fun h => findNextFuel_start_sentinel (c.clear) _ _
  have hbeg : (c.clear).beginIt = BeginRes.endIt :=
    beginLoop_all_empty (c.clear) (fun _ => rfl) (c.clear).bucketCount 0
      (Nat.le_refl _) hbc
  refine ⟨fun _ => rfl, hfind, ?_, hbeg, ?_, rfl, rfl⟩
  · intro h
    show (c.clear).visited ((c.clear).findPos h) ((c.clear).nodeCount + 1) = []
    rw [hfind h]
    exact visited_sentinel _ _
  · unfold globalList
    rw [hbeg]

theorem matchList_erase {c : HC} {f s : Nat} {l : List Nat} (hnd : l.Nodup) :
    c.matchList f (l.erase s) = (c.matchList f l).erase s := by
  by_cases hs : s ∈ l
  · obtain ⟨l₁, l₂, rfl⟩ := List.append_of_mem hs
    have hs1 : s ∉ l₁ := by
      intro hmem
      exact (List.disjoint_of_nodup_append hnd) hmem (List.mem_cons_self s l₂)
    rw [List.erase_append_right _ hs1, List.erase_cons_head, matchList_append,
      matchList_append]
    by_cases hm : (c.node s).hash = f
    · have : c.matchList f (s :: l₂) = s :: c.matchList f l₂ := by
        simp [matchList, hm]
      rw [this, List.erase_append_right _ (fun hmem => hs1 (mem_matchList.mp hmem).1),
        List.erase_cons_head]
    · have h2 : c.matchList f (s :: l₂) = c.matchList f l₂ := by
        simp [matchList, hm]
      rw [h2, List.erase_of_not_mem]
      intro hmem
      rcases List.mem_append.mp hmem with hmem | hmem
      · exact hm (mem_matchList.mp hmem).2
      · exact hm (mem_matchList.mp hmem).2
  · rw [List.erase_of_not_mem hs, List.erase_of_not_mem]
    intro hmem
    exact hs (mem_matchList.mp hmem).1

end HC

namespace HC

/-- A throwaway container, used only as the default value of `Option.getD`
when reading off a concrete constructed container. -/
def hcJunk : HC := ⟨0, 0, 0, 0, fun _ => 0, fun _ => ⟨0, 0⟩⟩

/-- A small concrete container: 4-bit slots, 3-bit fragments, two entries. -/
def hcA : HC := (create 4 3 2).getD hcJunk

/-- A one-entry container of the same small widths. -/
def hcB : HC := (create 4 3 1).getD hcJunk

/-- A zero-capacity container in the default 32/32 configuration. -/
def hcZero : HC := (create 32 32 0).getD hcJunk

/-- A zero-capacity container with the small test widths. -/
def hcZ : HC := (create 4 3 0).getD hcJunk

/-- The default (32-bit slots, 32-bit fragments) container with 3 entries,
hence 6 buckets. -/
def hc3 : HC := (create 32 32 3).getD hcJunk

/-- C1: `find(hash)` positions its cursor at the first slot of the chain of
bucket `low(hash) % bucketCount` whose stored high-hash fragment equals
`high(hash)` (the sentinel, i.e. an invalid cursor, when no slot of that
chain matches), and the cursor's full iteration reports exactly the
matching slots of that chain in chain order and then becomes invalid;
inserting `n` distinct previously unoccupied slots, all under one and the
same 64-bit hash, into a freshly constructed container of capacity `n` and
iterating `find` of that hash yields exactly those `n` slots in strict
reverse insertion order and then becomes invalid (`findList` is by
construction the complete cursor iteration, ending at the sentinel). -/
theorem C1_find_first_match_and_reverse_iteration :
    (∀ c : HC, c.WF → 0 < c.bucketCount → ∀ h : Nat, h < 2 ^ 64 →
      c.findPos h =
        (c.matchList (c.high h) (c.bucketChain (c.bucketOf h))).headD c.sentinel ∧
      c.findList h = c.matchList (c.high h) (c.bucketChain (c.bucketOf h))) ∧
    (∀ w hw n h : Nat, ∀ c0 : HC, create w hw n = some c0 → 0 < n → h < 2 ^ 64 →
      ∀ l : List Nat, l.Nodup → (∀ v ∈ l, v < n) → l.length = n →
      (c0.insertAll h l).findList h = l.reverse) := by
  constructor
  · intro c hwc hbc h _
    exact ⟨findPos_eq hwc hbc h, findList_eq hwc hbc h⟩
  · intro w hw n h c0 hcr hn _ l hnd hvl _
    have hwf0 := create_wf hcr
    obtain ⟨-, hc0eq⟩ := create_some hcr
    have hbcount : c0.bucketCount = 2 * n := by rw [hc0eq]
    have hncount : c0.nodeCount = n := by rw [hc0eq]
    have hbc0 : 0 < c0.bucketCount := by omega
    have hchain0 := create_chain hcr
    have hun0 : ∀ v ∈ l, c0.Unoccupied v := by
      intro v _ b _
      rw [hchain0 b]
      exact List.not_mem_nil v
    have hvl0 : ∀ v ∈ l, v < c0.nodeCount := by
      intro v hv
      rw [hncount]
      exact hvl v hv
    obtain ⟨hWF, hSame, -, hHash, -, hW, hHw, hBc, -⟩ :=
      insertAll_spec l c0 hwf0 hbc0 hvl0 hnd hun0
    have hbc' : 0 < (c0.insertAll h l).bucketCount := by rw [hBc]; omega
    rw [findList_eq hWF hbc' h, high_eq_of_hw hHw h, bucketOf_eq_of hW hBc h,
      hSame, hchain0 (c0.bucketOf h), List.append_nil]
    apply matchList_eq_self
    intro x hx
    exact hHash x (List.mem_reverse.mp hx)

/-- C2: `remove(hash, slot)` leaves the container completely unchanged when
the node's stored fragment differs from `high(hash)`; when the slot is a
live entry of the queried bucket whose stored fragment matches (as any
entry previously inserted under that hash is), the removal erases exactly
that slot from every restricted-match iteration — find of the original
hash never yields it again, and every other entry is still reported by
find of any hash exactly as before. -/
theorem C2_remove_noop_and_unlink :
    (∀ (c : HC) (h s : Nat), (c.node s).hash ≠ c.high h → c.remove h s = c) ∧
    (∀ c : HC, c.WF → 0 < c.bucketCount → ∀ h s : Nat, h < 2 ^ 64 →
      s ∈ c.bucketChain (c.bucketOf h) → (c.node s).hash = c.high h →
      (∀ f b, b < c.bucketCount →
        (c.remove h s).searchOut f b = (c.searchOut f b).erase s) ∧
      (∀ h', (c.remove h s).findList h' = (c.findList h').erase s) ∧
      s ∉ (c.remove h s).findList h) := by
  constructor
  · intro c h s hne
    simp only [remove]
    rw [if_pos hne]
  · intro c hwc hbc h s _ hsin hfrag
    obtain ⟨hErase, hOther, hHash, hWF'⟩ := remove_spec hwc hbc hsin hfrag
    obtain ⟨hW, hHw, hBc, -⟩ := remove_fields c h s
    have hb : c.bucketOf h < c.bucketCount := Nat.mod_lt _ hbc
    have hsearch : ∀ f b, b < c.bucketCount →
        (c.remove h s).searchOut f b = (c.searchOut f b).erase s := by
      intro f b hbb
      have hbb' : b < (c.remove h s).bucketCount := by rw [hBc]; exact hbb
      rw [searchOut_eq hWF' hbb' f, searchOut_eq hwc hbb f]
      by_cases hbe : b = c.bucketOf h
      · rw [hbe, hErase, matchList_congr (fun x _ => hHash x)]
        exact matchList_erase (hwc.2.2.2.1 _ hb)
      · rw [hOther b hbb hbe, matchList_congr (fun x _ => hHash x),
          List.erase_of_not_mem]
        intro hmem
        exact hwc.2.2.2.2 (c.bucketOf h) hb b hbb (fun he => hbe he.symm) s hsin
          (mem_matchList.mp hmem).1
    have hfl : ∀ h', (c.remove h s).findList h' =
        (c.remove h s).searchOut (c.high h') (c.bucketOf h') := by
      intro h'
      unfold findList
      rw [high_eq_of_hw hHw h', bucketOf_eq_of hW hBc h']
    refine ⟨hsearch, ?_, ?_⟩
    · intro h'
      rw [hfl h', hsearch (c.high h') (c.bucketOf h') (Nat.mod_lt _ hbc)]
      rfl
    · intro hmem
      rw [hfl h, hsearch (c.high h) (c.bucketOf h) hb] at hmem
      have hndq : (c.searchOut (c.high h) (c.bucketOf h)).Nodup := by
        rw [searchOut_eq hwc hb]
        exact (matchList_sublist c _ _).nodup (hwc.2.2.2.1 _ hb)
      exact (List.Nodup.not_mem_erase hndq) hmem

/-- C3: on any container, `emplace(h, s)` followed by `insertEmplaced(s)`
produces exactly the state of the single call `insert(h, s)` — identical
node array and bucket array contents. -/
theorem C3_emplace_insertEmplaced_refines_insert :
    ∀ (c : HC) (h v : Nat), 0 < c.bucketCount → v < c.nodeCount → c.Unoccupied v →
      (c.emplace h v).insertEmplaced v = c.insert h v :=
  fun c h v _ _ _ => emplace_insertEmplaced_eq_insert c h v

/-- C4: after `emplace(h, s)` and before `insertEmplaced(s)`, iterating
`findEmplaced(s)` yields exactly the already-linked live entries whose
bucket is `low(h) % bucketCount` and whose stored fragment equals
`high(h)`, and never yields `s` itself. -/
theorem C4_findEmplaced_reports_linked_matches_only :
    ∀ (c : HC) (h v : Nat), c.WF → 0 < c.bucketCount → v < c.nodeCount →
      c.Unoccupied v → h < 2 ^ 64 →
      (c.emplace h v).findEmplacedList v =
        c.matchList (c.high h) (c.bucketChain (c.bucketOf h)) ∧
      v ∉ (c.emplace h v).findEmplacedList v :=
  fun c h v hwc hbc _ hun _ => findEmplaced_spec hwc hbc hun h

/-- C5: the global traversal from `begin()` visits exactly the live
entries (each once, by its duplicate-freeness) in ascending bucket order
with each bucket's chain in chain order, and then becomes invalid; within
a bucket the chain order is reverse insertion order, witnessed by the LIFO
chain-push equation for `insert`; the traversal is a pure function of the
container state, so two traversals without an intervening mutation are
identical by definition. -/
theorem C5_global_iteration :
    ∀ c : HC, c.WF → 0 < c.bucketCount →
      c.globalList = c.chainsFrom 0 ∧
      (c.globalList).Nodup ∧
      (∀ x, x ∈ c.globalList ↔ c.Live x) ∧
      (∀ h v, v < c.nodeCount → c.Unoccupied v →
        (c.insert h v).bucketChain (c.bucketOf h) =
          v :: c.bucketChain (c.bucketOf h)) := by
  intro c hwc hbc
  have hgl := globalList_eq hwc hbc
  refine ⟨hgl, ?_, ?_, ?_⟩
  · rw [hgl]
    exact chainsFrom_nodup hwc c.bucketCount 0 (by omega)
  · intro x
    rw [hgl, mem_chainsFrom c.bucketCount 0 (by omega) x]
    constructor
    · rintro ⟨b, -, hb2, hx⟩
      exact ⟨b, hb2, hx⟩
    · rintro ⟨b, hb2, hx⟩
      exact ⟨b, by omega, hb2, hx⟩
  · intro h v hv hun
    exact insert_chain_same hwc hbc hv hun h

end HC

namespace HC

/-- C6 (amended): for every container with at least one bucket, `clear()`
resets every bucket head to the sentinel, so `find` returns an invalid
cursor for every hash (its iteration is empty) and `begin()` equals
`end()`; the capacity accessors `nodes()` and `buckets()` are unchanged.
The restriction to a nonzero bucket count is forced by the zero-capacity
counterexample, where `begin()`'s scan reads out of range. -/
theorem C6_clear_resets :
    ∀ c : HC, 0 < c.bucketCount →
      (∀ b, (c.clear).bucketFirst b = c.sentinel) ∧
      (∀ h, (c.clear).findPos h = c.sentinel) ∧
      (∀ h, (c.clear).findList h = []) ∧
      (c.clear).beginIt = BeginRes.endIt ∧
      (c.clear).globalList = [] ∧
      (c.clear).nodeCount = c.nodeCount ∧ (c.clear).bucketCount = c.bucketCount :=
  clear_spec

/-- C6 (counterexample): on the zero-capacity container — reached from
construction by the empty sequence of inserts — `begin()` after `clear()`
is not `end()`: it performs the out-of-range read of `m_bucketList[0]`,
so the claim's `begin() = end()` conjunct fails at capacity zero. -/
theorem C6_counterexample :
    (hcZ.clear).beginIt = BeginRes.oob 0 ∧ (hcZ.clear).beginIt ≠ BeginRes.endIt := by
  have h0 : (hcZ.clear).bucketCount = 0 := rfl
  have hoob := beginIt_oob_of_zero h0
  refine ⟨hoob, ?_⟩
  rw [hoob]
  decide

/-- C7: construction raises the capacity error exactly when
`entries ≥ sizeLimits::max() / bucketFactor` (with `bucketFactor = 2`);
on failure no state is produced, and on success the container has
`bucketCount = 2 * entries`, `nodeCount = entries`, and every bucket head
set to the sentinel. All other operations of the model are total, so this
is the only failure the embedding exposes. -/
theorem C7_construction_capacity_error :
    ∀ w hw e : Nat,
      (create w hw e = none ↔ (2 ^ w - 1) / 2 ≤ e) ∧
      (∀ c : HC, create w hw e = some c →
        c.bucketCount = 2 * e ∧ c.nodeCount = e ∧
        ∀ b, c.bucketFirst b = c.sentinel) := by
  intro w hw e
  constructor
  · unfold create
    by_cases hle : (2 ^ w - 1) / 2 ≤ e
    · simp [hle]
    · simp [hle]
  · intro c hc
    obtain ⟨-, rfl⟩ := create_some hc
    exact ⟨rfl, rfl, fun b => rfl⟩

/-- C8: on the zero-capacity container the `begin()` scan reads
`m_bucketList[0]` before testing `bucket == m_bucketCount`, an
out-of-range access — the claim that this branch is unreachable is false
for the container constructed with zero entries. -/
theorem C8_begin_oob_on_zero_capacity : hcZero.beginIt = BeginRes.oob 0 :=
  beginIt_oob_of_zero rfl

/-- C9 (amended): the bucket selected by `insert(h, s)`, `find(h)` and
`emplace(h, s)` is `low(h) % bucketCount = (h mod 2^slotWidth) mod
bucketCount` — the hash truncated to the slot width first; for hashes
below `2^slotWidth` this coincides with `h mod bucketCount`, but not in
general. -/
theorem C9_bucket_selection_amended :
    ∀ (c : HC) (h v : Nat),
      c.bucketOf h = (h % 2 ^ c.w) % c.bucketCount ∧
      (h < 2 ^ c.w → c.bucketOf h = h % c.bucketCount) ∧
      (c.insert h v).bucketFirst (c.bucketOf h) = v ∧
      (∀ b, b ≠ c.bucketOf h → (c.insert h v).bucketFirst b = c.bucketFirst b) ∧
      (c.emplace h v).node v = ⟨c.high h, c.bucketOf h⟩ ∧
      c.findPos h =
        findNextFuel c (c.high h) (c.bucketFirst (c.bucketOf h)) (c.nodeCount + 1) := by
  intro c h v
  refine ⟨rfl, ?_, upd_same _ _ _, fun b hb => upd_other _ _ hb, upd_same _ _ _, rfl⟩
  intro hlt
  show c.low h % c.bucketCount = h % c.bucketCount
  rw [low, Nat.mod_eq_of_lt hlt]

/-- C9 (counterexample): in the default 32-bit-slot configuration with 3
entries (6 buckets), the 64-bit hashes `2^32` and `4` are congruent modulo
the bucket count, yet select different buckets — the bucket is computed
from the hash truncated to 32 bits, not from the full hash. -/
theorem C9_counterexample :
    2 ^ 32 < 2 ^ 64 ∧
    (2 ^ 32) % hc3.bucketCount = 4 % hc3.bucketCount ∧
    hc3.bucketOf (2 ^ 32) ≠ hc3.bucketOf 4 := by
  exact ⟨by norm_num, by decide, by decide⟩

/-- C10: starting from any freshly constructed container, after any
sequence of valid operations (insert of an unoccupied slot, the
emplace-then-insertEmplaced pair on an unoccupied slot, remove of a live
entry under its original hash, clear) the state is well formed: every
bucket chain is a sentinel-terminated segment reached within `nodeCount`
steps (finite and acyclic, so every chain walk terminates), its entries
are valid slot indices below `nodeCount`, no slot occurs twice in one
chain or in two chains. -/
theorem C10_valid_operations_preserve_wf :
    ∀ (w hw e : Nat) (c0 c : HC), create w hw e = some c0 → Reach c0 c → c.WF := by
  intro w hw e c0 c hcr hreach
  have hr : Relation.ReflTransGen Step c0 c := hreach
  clear hreach
  induction hr with
  | refl => exact create_wf hcr
  | tail hsteps hstep ih => exact step_wf ih hstep

end HC

namespace HC

/-- Witness for C1 at concrete inputs: the fresh two-entry container, and a
one-entry container filled through `insertAll`. -/
theorem C1_witness :
    (hcA.findPos 0 =
      (hcA.matchList (hcA.high 0) (hcA.bucketChain (hcA.bucketOf 0))).headD
        hcA.sentinel ∧
     hcA.findList 0 = hcA.matchList (hcA.high 0) (hcA.bucketChain (hcA.bucketOf 0))) ∧
    (hcB.insertAll 5 [0]).findList 5 = [0].reverse :=
  ⟨C1_find_first_match_and_reverse_iteration.1 hcA (by decide) (by decide) 0 (by decide),
   C1_find_first_match_and_reverse_iteration.2 4 3 1 5 hcB rfl (by decide) (by decide)
     [0] (by decide) (by decide) (by decide)⟩

/-- Witness for C2: a fragment mismatch leaves the container untouched, and
removing a live entry makes `find` of its hash stop reporting it. -/
theorem C2_witness :
    hcA.remove (2 ^ 61) 0 = hcA ∧ 0 ∉ ((hcA.insert 0 0).remove 0 0).findList 0 :=
  ⟨C2_remove_noop_and_unlink.1 hcA (2 ^ 61) 0 (by decide),
   (C2_remove_noop_and_unlink.2 (hcA.insert 0 0) (by decide) (by decide) 0 0 (by decide)
     (by decide) (by decide)).2.2⟩

/-- Witness for C3 on a concrete container, hash and slot. -/
theorem C3_witness : (hcA.emplace 9 1).insertEmplaced 1 = hcA.insert 9 1 :=
  C3_emplace_insertEmplaced_refines_insert hcA 9 1 (by decide) (by decide) (by decide)

/-- Witness for C4 on a concrete container, hash and emplaced slot. -/
theorem C4_witness :
    (hcA.emplace 0 1).findEmplacedList 1 =
      hcA.matchList (hcA.high 0) (hcA.bucketChain (hcA.bucketOf 0)) ∧
    1 ∉ (hcA.emplace 0 1).findEmplacedList 1 :=
  C4_findEmplaced_reports_linked_matches_only hcA 0 1 (by decide) (by decide) (by decide)
    (by decide) (by decide)

/-- Witness for C5 on a container holding one live entry. -/
theorem C5_witness :
    (hcA.insert 0 0).globalList = (hcA.insert 0 0).chainsFrom 0 ∧
    ((hcA.insert 0 0).globalList).Nodup ∧
    (∀ x, x ∈ (hcA.insert 0 0).globalList ↔ (hcA.insert 0 0).Live x) ∧
    (∀ h v, v < (hcA.insert 0 0).nodeCount → (hcA.insert 0 0).Unoccupied v →
      ((hcA.insert 0 0).insert h v).bucketChain ((hcA.insert 0 0).bucketOf h) =
        v :: (hcA.insert 0 0).bucketChain ((hcA.insert 0 0).bucketOf h)) :=
  C5_global_iteration (hcA.insert 0 0) (by decide) (by decide)

/-- Witness for the amended C6 on a concrete nonzero-capacity container. -/
theorem C6_witness :
    (∀ b, (hcA.clear).bucketFirst b = hcA.sentinel) ∧
    (∀ h, (hcA.clear).findPos h = hcA.sentinel) ∧
    (∀ h, (hcA.clear).findList h = []) ∧
    (hcA.clear).beginIt = BeginRes.endIt ∧
    (hcA.clear).globalList = [] ∧
    (hcA.clear).nodeCount = hcA.nodeCount ∧ (hcA.clear).bucketCount = hcA.bucketCount :=
  C6_clear_resets hcA (by decide)

/-- Witness for C7: a too-large entry count fails, and a small one succeeds
with the documented sizes and sentinel-filled buckets. -/
theorem C7_witness :
    create 4 3 9 = none ∧
    (hcB.bucketCount = 2 * 1 ∧ hcB.nodeCount = 1 ∧
      ∀ b, hcB.bucketFirst b = hcB.sentinel) :=
  ⟨(C7_construction_capacity_error 4 3 9).1.mpr (by decide),
   (C7_construction_capacity_error 4 3 1).2 hcB rfl⟩

/-- Witness for the amended C9 on a concrete container with a hash below
the slot-width bound. -/
theorem C9_witness :
    hcA.bucketOf 3 = (3 % 2 ^ hcA.w) % hcA.bucketCount ∧
    hcA.bucketOf 3 = 3 % hcA.bucketCount ∧
    (hcA.insert 3 0).bucketFirst (hcA.bucketOf 3) = 0 ∧
    (∀ b, b ≠ hcA.bucketOf 3 → (hcA.insert 3 0).bucketFirst b = hcA.bucketFirst b) ∧
    (hcA.emplace 3 0).node 0 = ⟨hcA.high 3, hcA.bucketOf 3⟩ ∧
    hcA.findPos 3 =
      findNextFuel hcA (hcA.high 3) (hcA.bucketFirst (hcA.bucketOf 3))
        (hcA.nodeCount + 1) := by
  obtain ⟨h1, h2, h3, h4, h5, h6⟩ := C9_bucket_selection_amended hcA 3 0
  exact ⟨h1, h2 (by decide), h3, h4, h5, h6⟩

/-- Witness for C10: one valid insert step from a freshly constructed
container lands in a well-formed state. -/
theorem C10_witness : (hcB.insert 0 0).WF :=
  C10_valid_operations_preserve_wf 4 3 1 hcB (hcB.insert 0 0) rfl
    (Relation.ReflTransGen.single (Step.ins hcB 0 0 (by decide) (by decide) (by decide)))

end HC
